import Mathlib

/-!
# SlowScanner (pire/scanners/slow.h)

A shallow embedding of the nondeterministic scanner of `slow.h`.

Conventions of the embedding.

* A C array reached through a pointer (`m_letters`, `m_finals`, `m_jumpPos`,
  `m_jumps`) is the list of its elements; the null pointer is the empty list.
* Every array, vector and bitset access is checked: a function that would read
  or write outside its table returns `none` (the C++ behaviour is undefined
  there).  On runs that stay inside the tables the model follows the source
  statement by statement.
* `unsigned` and `size_t` values are natural numbers; the tables of a scanner
  are far smaller than `2 ^ 32` entries, so the conversions between the two are
  exact.
* A raw symbol (`Char`) is a natural number, an input string a list of them.
* The two configurations passed to `Next(current, next, c)` are distinct objects;
  the in-place overload `Next(s, c)` is `NextInPlace`.
* `assert` is active: a failed assertion ends the call with a fault.
* `MaxChar`, the size of the raw alphabet, is not defined in `slow.h`; it is a
  parameter of the definitions and theorems that need it.
-/

namespace Pire

/-- Modelled from the spec: the bit-set primitive of `vbitset.h` is not part of the
sources at hand.  It is a fixed-size vector of bits ("bitset sized to
statesCount"); `bits.length` is its size. -/
structure BitSet where
  bits : List Bool
deriving DecidableEq

namespace BitSet

/-- The constructor `BitSet(size)`: `size` bits, all clear. -/
def ofSize (size : Nat) : BitSet := ⟨List.replicate size false⟩

/-- The accessor `Size()`. -/
def Size (b : BitSet) : Nat := b.bits.length

/-- The method `Clear()`: every bit is reset, the size is kept. -/
def Clear (b : BitSet) : BitSet := ⟨List.replicate b.bits.length false⟩

/-- The method `Test(pos)`; `none` when `pos` is not a bit of the set. -/
def Test (b : BitSet) (pos : Nat) : Option Bool := b.bits[pos]?

/-- The method `Set(pos)`; `none` when `pos` is not a bit of the set. -/
def Set (b : BitSet) (pos : Nat) : Option BitSet :=
  if pos < b.bits.length then some ⟨b.bits.set pos true⟩ else none

end BitSet

/-- The struct `SlowScanner::State`: the list of active states and the bitset
of the states already in the list. -/
structure State where
  states : List Nat
  flags : BitSet
deriving DecidableEq

/-- The default constructor `State()`. -/
def State.empty : State := ⟨[], BitSet.ofSize 0⟩

/-- The constructor `State(size)`. -/
def State.ofSize (size : Nat) : State := ⟨[], BitSet.ofSize size⟩

/-- The struct `SlowScanner::Locals`. -/
structure Locals where
  statesCount : Nat
  lettersCount : Nat
  start : Nat
deriving DecidableEq

/-- The data members of `SlowScanner`.  `m_pool` lists the buffers the scanner
owns (by an identifier); `m_vec` is the dense table, empty once the scanner
works on the flattened pair `m_jumpPos`, `m_jumps`. -/
structure SlowScanner where
  m : Locals
  m_finals : List Bool
  m_jumps : List Nat
  m_jumpPos : List Nat
  m_letters : List Nat
  m_pool : List Nat
  m_vec : List (List Nat)
deriving DecidableEq

namespace SlowScanner

/-- The method `RegexpsCount()`. -/
def RegexpsCount (_sc : SlowScanner) : Nat := 1

/-- The method `Initialize(state)`. -/
def Initialize (sc : SlowScanner) (_state : State) : State :=
  { states := [sc.m.start], flags := BitSet.ofSize sc.m.statesCount }

/-- The range `[begin, end)` of destinations that `Next` fetches for the active
state `s` and the letter `l` (lines 78-90): from `m_jumpPos`/`m_jumps` when
`m_vec` is empty, from `m_vec` otherwise. -/
def destRange (sc : SlowScanner) (s l : Nat) : Option (List Nat) :=
  if sc.m_vec.isEmpty then
    match sc.m_jumpPos[s * sc.m.lettersCount + l]?,
          sc.m_jumpPos[s * sc.m.lettersCount + l + 1]? with
    | some b, some e =>
      if b ≤ e ∧ e ≤ sc.m_jumps.length then some ((sc.m_jumps.drop b).take (e - b))
      else none
    | _, _ => none
  else
    sc.m_vec[s * sc.m.lettersCount + l]?

/-- The inner loop of `Next` (lines 92-96) over one range of destinations. -/
def pushNew : State → List Nat → Option State
  | next, [] => some next
  | next, d :: ds =>
    match next.flags.Test d with
    | none => none
    | some true => pushNew next ds
    | some false =>
      match next.flags.Set d with
      | none => none
      | some f => pushNew ⟨next.states ++ [d], f⟩ ds

/-- The outer loop of `Next` (lines 77-97) over the active states. -/
def nextLoop (sc : SlowScanner) (l : Nat) : List Nat → State → Option State
  | [], next => some next
  | s :: rest, next =>
    match destRange sc s l with
    | none => none
    | some row =>
      match pushNew next row with
      | none => none
      | some next' => nextLoop sc l rest next'

/-- The method `Next(current, next, c)`: the new value of `next` and the
returned action. -/
def Next (sc : SlowScanner) (current next : State) (c : Nat) : Option (State × Nat) :=
  match sc.m_letters[c]? with
  | none => none
  | some l =>
    match nextLoop sc l current.states ⟨[], next.flags.Clear⟩ with
    | none => none
    | some next' => some (next', 0)

/-- The method `Next(s, c)`, the in-place step: the new value of `s` and the
returned action. -/
def NextInPlace (sc : SlowScanner) (s : State) (c : Nat) : Option (State × Nat) :=
  match Next sc s (State.ofSize sc.m.statesCount) c with
  | none => none
  | some (dest, a) => some (dest, a)

/-- The loop of `Final` over a list of active states. -/
def finalLoop (sc : SlowScanner) : List Nat → Option Bool
  | [] => some false
  | it :: rest =>
    match sc.m_finals[it]? with
    | none => none
    | some true => some true
    | some false => finalLoop sc rest

/-- The method `Final(s)`. -/
def Final (sc : SlowScanner) (s : State) : Option Bool := finalLoop sc s.states

/-- The method `CanStop(s)`. -/
def CanStop (sc : SlowScanner) (s : State) : Option Bool := Final sc s

/-- A pair of pointers into an array of ids, as `Accept` and `Deny` return it:
the array and the two positions. -/
structure IdRange where
  v : List Nat
  first : Nat
  last : Nat
deriving DecidableEq

/-- The ids between the two pointers of a range. -/
def IdRange.ids (r : IdRange) : List Nat := (r.v.drop r.first).take (r.last - r.first)

/-- The static method `Accept()`. -/
def Accept : IdRange := ⟨[0], 0, 1⟩

/-- The static method `Deny()`. -/
def Deny : IdRange := ⟨[0], 0, 0⟩

/-- The method `AcceptedRegexps(s)`. -/
def AcceptedRegexps (sc : SlowScanner) (s : State) : Option IdRange :=
  match Final sc s with
  | none => none
  | some b => some (if b then Accept else Deny)

/-- Repeated in-place steps over an input string, from the configuration `s`. -/
def scan (sc : SlowScanner) : State → List Nat → Option State
  | s, [] => some s
  | s, c :: cs =>
    match NextInPlace sc s c with
    | none => none
    | some (s', _) => scan sc s' cs

/-- The configurations a scan goes through: the one it starts from and the one
after each symbol. -/
def configs (sc : SlowScanner) : State → List Nat → Option (List State)
  | s, [] => some [s]
  | s, c :: cs =>
    match NextInPlace sc s c with
    | none => none
    | some (s', _) =>
      match configs sc s' cs with
      | none => none
      | some rest => some (s :: rest)

/-- A failed call of a construction hook: an assertion that does not hold, or
an access outside a table. -/
inductive Fault where
  | assertion
  | outOfBounds
deriving DecidableEq

/-- The method `SetJump(oldState, c, newState, payload)`. -/
def SetJump (sc : SlowScanner) (oldState c newState _payload : Nat) :
    Except Fault SlowScanner :=
  if sc.m_vec.isEmpty then .error .assertion
  else if ¬ oldState < sc.m.statesCount then .error .assertion
  else if ¬ newState < sc.m.statesCount then .error .assertion
  else
    match sc.m_letters[c]? with
    | none => .error .outOfBounds
    | some l =>
      match sc.m_vec[oldState * sc.m.lettersCount + l]? with
      | none => .error .outOfBounds
      | some v =>
        .ok { sc with m_vec := sc.m_vec.set (oldState * sc.m.lettersCount + l) (v ++ [newState]) }

/-- One reported transition: the arguments of a `SetJump` call. -/
structure Jump where
  oldState : Nat
  c : Nat
  newState : Nat
  payload : Nat
deriving DecidableEq

/-- A sequence of `SetJump` calls, in the order of the list; the first failing
call ends the construction. -/
def applyJumps (sc : SlowScanner) : List Jump → Except Fault SlowScanner
  | [] => .ok sc
  | j :: js =>
    match SetJump sc j.oldState j.c j.newState j.payload with
    | .error e => .error e
    | .ok sc' => applyJumps sc' js

/-! ## Reference notions the scanner is compared with -/

/-- First-occurrence deduplication: every value is kept where it occurs first,
later occurrences are dropped. -/
def firstOcc : List Nat → List Nat
  | [] => []
  | x :: xs => x :: (firstOcc xs).filter (fun y => y ≠ x)

/-- The concatenation, over the states of a list in order, of their destination
rows for the letter `l`; `none` when one of the rows does not exist. -/
def destsOf (sc : SlowScanner) (l : Nat) : List Nat → Option (List Nat)
  | [] => some []
  | s :: rest =>
    match destRange sc s l, destsOf sc l rest with
    | some row, some ds => some (row ++ ds)
    | _, _ => none

/-- The bits of a bitset after marking every position of a list. -/
def markAll (b : BitSet) (ds : List Nat) : BitSet :=
  ⟨ds.foldl (fun bits d => bits.set d true) b.bits⟩

/-- A path of the automaton: `Path sc p w q` says that `q` is reached from `p`
by following, symbol by symbol along `w`, the destination rows of the scanner. -/
inductive Path (sc : SlowScanner) : Nat → List Nat → Nat → Prop
  | nil (p : Nat) : Path sc p [] p
  | cons {p p' q c l : Nat} {row w : List Nat} :
      sc.m_letters[c]? = some l → destRange sc p l = some row → p' ∈ row →
      Path sc p' w q → Path sc p (c :: w) q

/-- The state `q` is reachable from the initial state consuming `w`. -/
def Reach (sc : SlowScanner) (w : List Nat) (q : Nat) : Prop := Path sc sc.m.start w q

/-- The invariants of the data model: the initial state, the letters and the
stored destinations are in range, and the tables have the sizes the data model
gives them (a finals table of `statesCount` flags; a dense table of
`statesCount * lettersCount` rows, or an offset array of
`statesCount * lettersCount + 1` non-decreasing offsets into the targets). -/
structure Invariants (sc : SlowScanner) : Prop where
  start_lt : sc.m.start < sc.m.statesCount
  letters_lt : ∀ l ∈ sc.m_letters, l < sc.m.lettersCount
  vec_lt : ∀ row ∈ sc.m_vec, ∀ d ∈ row, d < sc.m.statesCount
  jumps_lt : ∀ d ∈ sc.m_jumps, d < sc.m.statesCount
  finals_len : sc.m_finals.length = sc.m.statesCount
  vec_len : sc.m_vec ≠ [] → sc.m_vec.length = sc.m.statesCount * sc.m.lettersCount
  pos_len : sc.m_vec = [] → sc.m_jumpPos.length = sc.m.statesCount * sc.m.lettersCount + 1
  pos_mono : sc.m_vec = [] → sc.m_jumpPos.Pairwise (fun a b => a ≤ b)
  pos_le : sc.m_vec = [] → ∀ e ∈ sc.m_jumpPos, e ≤ sc.m_jumps.length

/-- Two results of a scan hold the same set of states and the scanners they
belong to agree on `Final` (or both scans left their tables). -/
def SameOutcome (sc₁ sc₂ : SlowScanner) : Option State → Option State → Prop
  | some a, some b => (∀ q, q ∈ a.states ↔ q ∈ b.states) ∧ Final sc₁ a = Final sc₂ b
  | none, none => True
  | _, _ => False

/-! ## The scanner of the example "contains the substring ab" -/

/-- The letter table of the example: `a` is letter 1, `b` is letter 2, every
other symbol is letter 0. -/
def abLetters : List Nat :=
  (List.range 264).map (fun c => if c = 97 then 1 else if c = 98 then 2 else 0)

/-- The example scanner in dense form: states 0 (start), 1 (seen `a`), 2 (accept). -/
def abScanner : SlowScanner where
  m := ⟨3, 3, 0⟩
  m_finals := [false, false, true]
  m_jumps := []
  m_jumpPos := []
  m_letters := abLetters
  m_pool := [0, 1]
  m_vec := [[0], [1], [0],
            [0], [1], [2],
            [2], [2], [2]]

/-- The example scanner in flattened form. -/
def abScannerFlat : SlowScanner where
  m := ⟨3, 3, 0⟩
  m_finals := [false, false, true]
  m_jumps := [0, 1, 0, 0, 1, 2, 2, 2, 2]
  m_jumpPos := [0, 1, 2, 3, 4, 5, 6, 7, 8, 9]
  m_letters := abLetters
  m_pool := []
  m_vec := []

/-- The destinations that a list of `SetJump` calls appends to the row of index
`i`, in the order of the calls. -/
def added (sc : SlowScanner) (js : List Jump) (i : Nat) : List Nat :=
  js.filterMap (fun j =>
    match sc.m_letters[j.c]? with
    | some l => if j.oldState * sc.m.lettersCount + l = i then some j.newState else none
    | none => none)

/-- The call `j` of `SetJump` is in range for the scanner: the dense table is in
use, both states are states of the scanner, the symbol has a letter and the row
of the old state and that letter is a row of the table. -/
def JumpOk (sc : SlowScanner) (j : Jump) : Prop :=
  sc.m_vec ≠ [] ∧ j.oldState < sc.m.statesCount ∧ j.newState < sc.m.statesCount ∧
    ∃ l, sc.m_letters[j.c]? = some l ∧ j.oldState * sc.m.lettersCount + l < sc.m_vec.length

/-- Two scanners with the same header, letter table and finals table whose
destination rows exist for the same pairs and hold the same destinations. -/
structure RowsAgree (sc₁ sc₂ : SlowScanner) : Prop where
  hm : sc₁.m = sc₂.m
  hl : sc₁.m_letters = sc₂.m_letters
  hf : sc₁.m_finals = sc₂.m_finals
  rows_some : ∀ s l, (∃ row, destRange sc₁ s l = some row) ↔ (∃ row, destRange sc₂ s l = some row)
  rows_mem : ∀ s l d, (∃ row, destRange sc₁ s l = some row ∧ d ∈ row) ↔
    (∃ row, destRange sc₂ s l = some row ∧ d ∈ row)

/-- A scanner after its set-up, before any transition is reported: two states,
one letter, empty rows. -/
def freshScanner : SlowScanner where
  m := ⟨2, 1, 0⟩
  m_finals := [false, true]
  m_jumps := []
  m_jumpPos := []
  m_letters := [0, 0, 0, 0]
  m_pool := [0, 1]
  m_vec := [[], []]

/-! ## Further example scanners -/

/-- A one-letter scanner in which the row of state 0 lists state 1 twice and
the rows of states 0 and 2 both lead to state 1. -/
def dupScanner : SlowScanner where
  m := ⟨3, 1, 0⟩
  m_finals := [false, true, false]
  m_jumps := []
  m_jumpPos := []
  m_letters := [0, 0]
  m_pool := [0, 1]
  m_vec := [[1, 1, 0], [], [1, 2]]

/-! ## An invariant of the step -/

/-- The bitset of a configuration marks exactly the states of its list. -/
def Marks (st : State) : Prop := ∀ i, st.flags.bits[i]? = some true ↔ i ∈ st.states

/-! ## Configurations written by a step -/

/-- A configuration written by a step of a scan: its bitset has `statesCount` bits
and marks exactly the states of its list, which are distinct and below
`statesCount`. -/
def Stepped (sc : SlowScanner) (s : State) : Prop :=
  s.flags.Size = sc.m.statesCount ∧ Marks s ∧ s.states.Nodup ∧
    ∀ p ∈ s.states, p < sc.m.statesCount

/-- A scanner whose letter table holds a letter that is not below `lettersCount`. -/
def looseLetterScanner : SlowScanner where
  m := ⟨2, 1, 0⟩
  m_finals := [false, false]
  m_jumps := []
  m_jumpPos := []
  m_letters := [1]
  m_pool := [0, 1]
  m_vec := [[], []]

/-! ## The constructor from a source automaton -/

/-- Modelled from the spec: the source automaton (`fsm.h` and `partition.h` are not part
of the sources at hand), as it is after `Canonize()`: its state count, its letter
partition as the list of its classes, each with its condensed id and its raw
symbols, and its initial state. -/
structure Fsm where
  Size : Nat
  Letters : List (Nat × List Nat)
  Initial : Nat
deriving DecidableEq

/-- The method `alloc(p, size)`: a zeroed array of `size` entries, recorded in the
pool of owned buffers (under the next free identifier). -/
def alloc {α : Type} (zero : α) (pool : List Nat) (size : Nat) : List α × List Nat :=
  (List.replicate size zero, pool ++ [pool.length])

/-- The call `fill(first, first + count, value)` on a table. -/
def fill (tbl : List Nat) (count value : Nat) : Option (List Nat) :=
  if count ≤ tbl.length then some (List.replicate count value ++ tbl.drop count) else none

/-- The inner loop of the constructor (lines 196-197) over the raw symbols of one
class: `m_letters[*it2] = id`. -/
def setLetters (id : Nat) : List Nat → List Nat → Option (List Nat)
  | [], tbl => some tbl
  | c :: cs, tbl => if c < tbl.length then setLetters id cs (tbl.set c id) else none

/-- The outer loop of the constructor (lines 195-197) over the classes. -/
def setClasses : List (Nat × List Nat) → List Nat → Option (List Nat)
  | [], tbl => some tbl
  | cls :: rest, tbl =>
    match setLetters cls.1 cls.2 tbl with
    | none => none
    | some tbl' => setClasses rest tbl'

/-- The constructor `SlowScanner(Fsm&)` up to the call of `BuildScanner` (lines
184-199), on the canonized automaton; `MaxChar` is the size of the raw alphabet.
The count `sizeof(m_letters)/sizeof(*m_letters)` of the `fill` is the size of a
pointer over the size of a `size_t`, that is 1. -/
def construct (MaxChar : Nat) (fsm : Fsm) : Option SlowScanner :=
  let statesCount := fsm.Size
  let lettersCount := fsm.Letters.length
  let m_vec : List (List Nat) := List.replicate (statesCount * lettersCount) []
  let letters := alloc 0 [] MaxChar
  let finals := alloc false letters.2 statesCount
  match fill letters.1 1 0 with
  | none => none
  | some tbl =>
    match setClasses fsm.Letters tbl with
    | none => none
    | some tbl' =>
      some ⟨⟨statesCount, lettersCount, fsm.Initial⟩, finals.1, [], [], tbl', finals.2, m_vec⟩

/-- The automaton of the example with its letter partition: `a` in class 1, `b`
in class 2, `x` and `y` in class 0, the other symbols in no class. -/
def abFsm : Fsm := ⟨3, [(0, [120, 121]), (1, [97]), (2, [98])], 0⟩

/-! ## Mapping a scanner over a buffer -/

/-- The default constructor `SlowScanner()`; `m_letters`, which it leaves
uninitialised, is taken as null. -/
def empty : SlowScanner := ⟨⟨0, 0, 0⟩, [], [], [], [], [], []⟩

theorem firstOcc_mem (xs : List Nat) (q : Nat) : q ∈ firstOcc xs ↔ q ∈ xs := by
  induction xs with
  | nil => simp [firstOcc]
  | cons x xs ih =>
    simp only [firstOcc, List.mem_cons, List.mem_filter, ih, decide_eq_true_eq]
    by_cases h : q = x <;> simp [h]

theorem firstOcc_nodup (xs : List Nat) : (firstOcc xs).Nodup := by
  induction xs with
  | nil => simp [firstOcc]
  | cons x xs ih =>
    simp only [firstOcc, List.nodup_cons, List.mem_filter, decide_eq_true_eq]
    exact ⟨fun h => h.2 rfl, ih.filter _⟩

theorem pushNew_append (st : State) (xs ys : List Nat) :
    pushNew st (xs ++ ys) = (pushNew st xs).bind (fun st' => pushNew st' ys) := by
  induction xs generalizing st with
  | nil => simp [pushNew]
  | cons d ds ih =>
    simp only [List.cons_append, pushNew]
    cases h : st.flags.Test d with
    | none => simp
    | some b =>
      cases b with
      | true => simp [ih]
      | false =>
        cases h2 : st.flags.Set d with
        | none => simp
        | some f => simp [ih]

theorem nextLoop_eq (sc : SlowScanner) (l : Nat) (ss : List Nat) (st : State) :
    nextLoop sc l ss st = (destsOf sc l ss).bind (pushNew st) := by
  induction ss generalizing st with
  | nil => simp [nextLoop, destsOf, pushNew]
  | cons s rest ih =>
    simp only [nextLoop, destsOf]
    cases h : destRange sc s l with
    | none => simp
    | some row =>
      cases h2 : destsOf sc l rest with
      | none =>
        cases h3 : pushNew st row with
        | none => simp [h3]
        | some st' => simp [h3, ih, h2]
      | some ds =>
        simp only [Option.some_bind, pushNew_append]
        cases h3 : pushNew st row with
        | none => simp [h3]
        | some st' => simp [h3, ih, h2]

theorem markAll_cons (b : BitSet) (d : Nat) (ds : List Nat) :
    markAll b (d :: ds) = markAll ⟨b.bits.set d true⟩ ds := rfl

theorem markAll_size (b : BitSet) (ds : List Nat) : (markAll b ds).Size = b.Size := by
  induction ds generalizing b with
  | nil => rfl
  | cons d ds ih => rw [markAll_cons, ih]; simp [BitSet.Size]

theorem set_true_of_get (bits : List Bool) (d : Nat) (h : bits[d]? = some true) :
    bits.set d true = bits := by
  apply List.ext_getElem? 
  intro i
  by_cases hi : d = i
  · subst hi
    rw [List.getElem?_set_self', h]
    rfl
  · rw [List.getElem?_set_ne hi]

theorem pushNew_eq (st : State) (xs : List Nat) (hm : Marks st) :
    pushNew st xs =
      if ∀ d ∈ xs, d < st.flags.Size then
        some ⟨st.states ++ (firstOcc xs).filter (fun y => y ∉ st.states), markAll st.flags xs⟩
      else none := by
  induction xs generalizing st with
  | nil => simp [pushNew, firstOcc, markAll]
  | cons d ds ih =>
    simp only [pushNew, BitSet.Test]
    by_cases hd : d < st.flags.bits.length
    · have hget : st.flags.bits[d]? = some (st.flags.bits[d]) := List.getElem?_eq_getElem hd
      cases hb : st.flags.bits[d] with
      | true =>
        rw [hb] at hget
        have hmem : d ∈ st.states := (hm d).1 hget
        rw [hget]
        simp only
        rw [ih st hm, markAll_cons, set_true_of_get _ _ hget]
        have hcond : (∀ x ∈ d :: ds, x < st.flags.Size) ↔ (∀ x ∈ ds, x < st.flags.Size) := by
          simp [BitSet.Size, hd]
        have e : (firstOcc (d :: ds)).filter (fun y => y ∉ st.states) =
            (firstOcc ds).filter (fun y => y ∉ st.states) := by
          rw [firstOcc, List.filter_cons_of_neg (by simpa using hmem), List.filter_filter]
          apply List.filter_congr
          intro y _
          by_cases hy : y ∈ st.states
          · simp [hy]
          · have : y ≠ d := fun e => hy (e ▸ hmem)
            simp [hy, this]
        rw [e]
        simp only [hcond]
      | false =>
        rw [hb] at hget
        have hmem : d ∉ st.states := fun h => by
          have := (hm d).2 h
          rw [hget] at this
          cases this
        rw [hget]
        simp only [BitSet.Set, hd, if_true]
        have hm' : Marks ⟨st.states ++ [d], ⟨st.flags.bits.set d true⟩⟩ := by
          intro i
          simp only [List.mem_append, List.mem_singleton]
          by_cases hi : d = i
          · subst hi
            simp [List.getElem?_set_self', hget]
          · rw [List.getElem?_set_ne hi, hm i]
            constructor
            · exact Or.inl
            · rintro (h | h)
              · exact h
              · exact absurd h.symm hi
        rw [ih _ hm', markAll_cons]
        have hcond : (∀ x ∈ d :: ds, x < st.flags.Size) ↔
            (∀ x ∈ ds, x < (BitSet.mk (st.flags.bits.set d true)).Size) := by
          simp [BitSet.Size, hd]
        have e : (firstOcc (d :: ds)).filter (fun y => y ∉ st.states) =
            d :: (firstOcc ds).filter (fun y => y ∉ st.states ++ [d]) := by
          rw [firstOcc, List.filter_cons_of_pos (by simpa using hmem), List.filter_filter]
          congr 1
          apply List.filter_congr
          intro y _
          by_cases hy : y ∈ st.states <;> by_cases hy2 : y = d <;> simp [hy, hy2]
        rw [e]
        simp only [hcond, List.append_assoc, List.singleton_append]
    · rw [List.getElem?_eq_none (Nat.le_of_not_lt hd)]
      have : ¬ ∀ x ∈ d :: ds, x < st.flags.Size := fun h => hd (h d (List.mem_cons_self _ _))
      rw [if_neg this]

/-! ## `Next` in closed form, and paths -/

theorem marks_clear (b : BitSet) : Marks ⟨[], b.Clear⟩ := by
  intro i
  simp only [BitSet.Clear, List.not_mem_nil, iff_false]
  intro h
  have := List.getElem?_replicate (a := false) (n := b.bits.length) (m := i)
  rw [this] at h
  split at h <;> cases h

theorem Next_eq (sc : SlowScanner) (cur out : State) (c : Nat) :
    Next sc cur out c =
      match sc.m_letters[c]? with
      | none => none
      | some l =>
        match destsOf sc l cur.states with
        | none => none
        | some ds =>
          if ∀ d ∈ ds, d < out.flags.Size then
            some (⟨firstOcc ds, markAll out.flags.Clear ds⟩, 0)
          else none := by
  unfold Next
  cases hl : sc.m_letters[c]? with
  | none => rfl
  | some l =>
    simp only [nextLoop_eq]
    cases hd : destsOf sc l cur.states with
    | none => rfl
    | some ds =>
      simp only [Option.some_bind, pushNew_eq _ _ (marks_clear out.flags)]
      have hs : out.flags.Clear.Size = out.flags.Size := by simp [BitSet.Clear, BitSet.Size]
      simp only [hs]
      by_cases hc : ∀ d ∈ ds, d < out.flags.Size
      · rw [if_pos hc, if_pos hc]
        simp
      · rw [if_neg hc, if_neg hc]

theorem destsOf_some_iff (sc : SlowScanner) (l : Nat) (ss : List Nat) :
    (∃ ds, destsOf sc l ss = some ds) ↔ ∀ s ∈ ss, ∃ row, destRange sc s l = some row := by
  induction ss with
  | nil => simp [destsOf]
  | cons s rest ih =>
    simp only [destsOf, List.mem_cons, forall_eq_or_imp, ← ih]
    cases h : destRange sc s l with
    | none => simp
    | some row =>
      cases h2 : destsOf sc l rest with
      | none => simp
      | some ds => simp

theorem destsOf_mem (sc : SlowScanner) (l : Nat) (ss ds : List Nat)
    (h : destsOf sc l ss = some ds) (d : Nat) :
    d ∈ ds ↔ ∃ s ∈ ss, ∃ row, destRange sc s l = some row ∧ d ∈ row := by
  induction ss generalizing ds with
  | nil =>
    simp only [destsOf, Option.some.injEq] at h
    subst h
    simp
  | cons s rest ih =>
    simp only [destsOf] at h
    cases h1 : destRange sc s l with
    | none => simp [h1] at h
    | some row =>
      cases h2 : destsOf sc l rest with
      | none => simp [h1, h2] at h
      | some ds' =>
        simp only [h1, h2, Option.some.injEq] at h
        subst h
        simp only [List.mem_append, List.mem_cons, exists_eq_or_imp, ih ds' h2, h1,
          Option.some.injEq, exists_eq_left']

theorem Next_some (sc : SlowScanner) (cur out out' : State) (c a : Nat)
    (h : Next sc cur out c = some (out', a)) :
    ∃ l ds, sc.m_letters[c]? = some l ∧ destsOf sc l cur.states = some ds ∧
      (∀ d ∈ ds, d < out.flags.Size) ∧ out' = ⟨firstOcc ds, markAll out.flags.Clear ds⟩ ∧ a = 0 := by
  rw [Next_eq] at h
  cases hl : sc.m_letters[c]? with
  | none => simp [hl] at h
  | some l =>
    cases hd : destsOf sc l cur.states with
    | none => simp [hl, hd] at h
    | some ds =>
      simp only [hl, hd] at h
      by_cases hc : ∀ d ∈ ds, d < out.flags.Size
      · rw [if_pos hc] at h
        simp only [Option.some.injEq, Prod.mk.injEq] at h
        exact ⟨l, ds, rfl, hd, hc, h.1.symm, h.2.symm⟩
      · rw [if_neg hc] at h
        cases h

theorem path_nil_iff (sc : SlowScanner) (p q : Nat) : Path sc p [] q ↔ p = q := by
  constructor
  · intro h
    cases h
    rfl
  · rintro rfl
    exact Path.nil p

theorem path_cons_iff (sc : SlowScanner) (p q c : Nat) (w : List Nat) :
    Path sc p (c :: w) q ↔
      ∃ l row p', sc.m_letters[c]? = some l ∧ destRange sc p l = some row ∧ p' ∈ row ∧
        Path sc p' w q := by
  constructor
  · intro h
    cases h with
    | cons h1 h2 h3 h4 => exact ⟨_, _, _, h1, h2, h3, h4⟩
  · rintro ⟨l, row, p', h1, h2, h3, h4⟩
    exact Path.cons h1 h2 h3 h4

theorem NextInPlace_eq (sc : SlowScanner) (s : State) (c : Nat) :
    NextInPlace sc s c = Next sc s (State.ofSize sc.m.statesCount) c := by
  unfold NextInPlace
  cases Next sc s (State.ofSize sc.m.statesCount) c with
  | none => rfl
  | some r => rfl

theorem scan_path (sc : SlowScanner) (input : List Nat) (s cfg : State)
    (h : scan sc s input = some cfg) (q : Nat) :
    q ∈ cfg.states ↔ ∃ p ∈ s.states, Path sc p input q := by
  induction input generalizing s with
  | nil =>
    simp only [scan, Option.some.injEq] at h
    subst h
    simp [path_nil_iff]
  | cons c cs ih =>
    simp only [scan] at h
    cases hn : NextInPlace sc s c with
    | none => simp [hn] at h
    | some r =>
      obtain ⟨s', a⟩ := r
      simp only [hn] at h
      rw [NextInPlace_eq] at hn
      obtain ⟨l, ds, hl, hds, -, hs', -⟩ := Next_some sc s _ s' c a hn
      rw [ih s' h]
      subst hs'
      simp only [firstOcc_mem, destsOf_mem sc l s.states ds hds, path_cons_iff, hl,
        Option.some.injEq, exists_eq_left']
      constructor
      · rintro ⟨p', ⟨p, hp, row, hrow, hp'⟩, hpath⟩
        exact ⟨p, hp, l, row, p', rfl, hrow, hp', hpath⟩
      · rintro ⟨p, hp, l', row, p', rfl, hrow, hp', hpath⟩
        exact ⟨p', ⟨p, hp, row, hrow, hp'⟩, hpath⟩

/-! ## Scans of a scanner that satisfies the invariants -/

theorem row_index_lt {s l sC lC : Nat} (hs : s < sC) (hl : l < lC) : s * lC + l < sC * lC := by
  calc s * lC + l < s * lC + lC := by omega
    _ = (s + 1) * lC := by ring
    _ ≤ sC * lC := Nat.mul_le_mul_right _ hs

theorem destRange_of_invariants (sc : SlowScanner) (h : Invariants sc) (s l : Nat)
    (hs : s < sc.m.statesCount) (hl : l < sc.m.lettersCount) :
    ∃ row, destRange sc s l = some row ∧ ∀ d ∈ row, d < sc.m.statesCount := by
  have hidx := row_index_lt hs hl
  by_cases hv : sc.m_vec = []
  · have hlen := h.pos_len hv
    have h1 : s * sc.m.lettersCount + l < sc.m_jumpPos.length := by omega
    have h2 : s * sc.m.lettersCount + l + 1 < sc.m_jumpPos.length := by omega
    have hmono := List.pairwise_iff_getElem.1 (h.pos_mono hv) _ _ h1 h2 (Nat.lt_succ_self _)
    have hle := h.pos_le hv _ (List.getElem_mem h2)
    refine ⟨(sc.m_jumps.drop sc.m_jumpPos[s * sc.m.lettersCount + l]).take
      (sc.m_jumpPos[s * sc.m.lettersCount + l + 1] - sc.m_jumpPos[s * sc.m.lettersCount + l]),
      ?_, ?_⟩
    · unfold destRange
      rw [hv, List.getElem?_eq_getElem h1, List.getElem?_eq_getElem h2]
      simp only [List.isEmpty_nil, if_true]
      rw [if_pos ⟨hmono, hle⟩]
    · intro d hd
      exact h.jumps_lt d (List.mem_of_mem_drop (List.mem_of_mem_take hd))
  · have hlen := h.vec_len hv
    have h1 : s * sc.m.lettersCount + l < sc.m_vec.length := by omega
    refine ⟨sc.m_vec[s * sc.m.lettersCount + l], ?_, ?_⟩
    · unfold destRange
      have : sc.m_vec.isEmpty = false := by
        cases hm : sc.m_vec with
        | nil => exact absurd hm hv
        | cons a b => rfl
      rw [this, List.getElem?_eq_getElem h1]
      simp
    · exact h.vec_lt _ (List.getElem_mem h1)

theorem Next_total (sc : SlowScanner) (h : Invariants sc) (cur out : State) (c : Nat)
    (hc : c < sc.m_letters.length) (hcur : ∀ s ∈ cur.states, s < sc.m.statesCount)
    (hout : out.flags.Size = sc.m.statesCount) :
    ∃ out', Next sc cur out c = some (out', 0) := by
  rw [Next_eq, List.getElem?_eq_getElem hc]
  have hl : sc.m_letters[c] < sc.m.lettersCount := h.letters_lt _ (List.getElem_mem hc)
  have hrows : ∀ s ∈ cur.states, ∃ row, destRange sc s sc.m_letters[c] = some row := fun s hs =>
    (destRange_of_invariants sc h s _ (hcur s hs) hl).imp fun _ hr => hr.1
  obtain ⟨ds, hds⟩ := (destsOf_some_iff sc _ cur.states).2 hrows
  have hlt : ∀ d ∈ ds, d < out.flags.Size := by
    intro d hd
    obtain ⟨s, hs, row, hrow, hdrow⟩ := (destsOf_mem sc _ _ ds hds d).1 hd
    obtain ⟨row', hrow', hlt⟩ := destRange_of_invariants sc h s _ (hcur s hs) hl
    rw [hrow] at hrow'
    cases hrow'
    rw [hout]
    exact hlt d hdrow
  simp only [hds]
  rw [if_pos hlt]
  exact ⟨_, rfl⟩

theorem Next_states_lt (sc : SlowScanner) (cur out out' : State) (c a : Nat)
    (h : Next sc cur out c = some (out', a)) : ∀ s ∈ out'.states, s < out.flags.Size := by
  obtain ⟨l, ds, -, -, hlt, hout, -⟩ := Next_some sc cur out out' c a h
  subst hout
  intro s hs
  exact hlt s ((firstOcc_mem ds s).1 hs)

theorem ofSize_size (n : Nat) : (State.ofSize n).flags.Size = n := by
  simp [State.ofSize, BitSet.ofSize, BitSet.Size]

theorem scan_total (sc : SlowScanner) (h : Invariants sc) (input : List Nat)
    (hin : ∀ c ∈ input, c < sc.m_letters.length) (s : State)
    (hs : ∀ p ∈ s.states, p < sc.m.statesCount) :
    ∃ cfg, scan sc s input = some cfg ∧ ∀ p ∈ cfg.states, p < sc.m.statesCount := by
  induction input generalizing s with
  | nil => exact ⟨s, rfl, hs⟩
  | cons c cs ih =>
    obtain ⟨s', hs'⟩ := Next_total sc h s (State.ofSize sc.m.statesCount) c
      (hin c (List.mem_cons_self _ _)) hs (ofSize_size _)
    have hlt := Next_states_lt sc s _ s' c 0 hs'
    rw [ofSize_size] at hlt
    obtain ⟨cfg, hcfg, hcfglt⟩ := ih (fun c' hc' => hin c' (List.mem_cons_of_mem _ hc')) s' hlt
    refine ⟨cfg, ?_, hcfglt⟩
    simp only [scan, NextInPlace_eq, hs', hcfg]

theorem finalLoop_some (sc : SlowScanner) (ss : List Nat) (b : Bool)
    (h : finalLoop sc ss = some b) : b = true ↔ ∃ s ∈ ss, sc.m_finals[s]? = some true := by
  induction ss with
  | nil =>
    simp only [finalLoop, Option.some.injEq] at h
    subst h
    simp
  | cons it rest ih =>
    simp only [finalLoop] at h
    cases hf : sc.m_finals[it]? with
    | none => simp [hf] at h
    | some v =>
      cases v with
      | true =>
        simp only [hf, Option.some.injEq] at h
        subst h
        simp [hf]
      | false =>
        simp only [hf] at h
        rw [ih h]
        simp [hf]

theorem finalLoop_total (sc : SlowScanner) (ss : List Nat)
    (h : ∀ s ∈ ss, s < sc.m_finals.length) : ∃ b, finalLoop sc ss = some b := by
  induction ss with
  | nil => exact ⟨false, rfl⟩
  | cons it rest ih =>
    have hit := h it (List.mem_cons_self _ _)
    simp only [finalLoop, List.getElem?_eq_getElem hit]
    cases sc.m_finals[it] with
    | true => exact ⟨true, rfl⟩
    | false => exact ih (fun s hs => h s (List.mem_cons_of_mem _ hs))

/-! ## Reachability and deduplication -/

theorem abLetters_length : abLetters.length = 264 := by simp [abLetters]

set_option maxRecDepth 4000 in
theorem abScanner_scan_aab :
    scan abScanner (Initialize abScanner State.empty) ([97, 97, 98].take 3) =
      some ⟨[2], ⟨[false, false, true]⟩⟩ := by
  decide

theorem abScanner_invariants : Invariants abScanner where
  start_lt := by decide
  letters_lt := by
    intro l hl
    simp only [abScanner, abLetters, List.mem_map] at hl
    obtain ⟨c, -, rfl⟩ := hl
    show _ < 3
    split
    · omega
    · split <;> omega
  vec_lt := by decide
  jumps_lt := by decide
  finals_len := by decide
  vec_len := by decide
  pos_len := by decide
  pos_mono := by decide
  pos_le := by decide

/-- C1: `Initialize` followed by one in-place `Next` per symbol of `s[0..i)` yields
a configuration whose states are exactly the states reachable from the initial
state by following the destination rows along `s[0..i)`, and `Final` of it is
true iff a state marked final is reachable along `s[0..i)`.  For a scanner whose
tables satisfy the invariants of the data model, and symbols of its letter
table, the scan and `Final` do return. -/
theorem scan_states_reachable (sc : SlowScanner) (s : List Nat) (i : Nat) (cfg0 : State) :
    (∀ cfg, scan sc (Initialize sc cfg0) (s.take i) = some cfg →
      (∀ q, q ∈ cfg.states ↔ Reach sc (s.take i) q) ∧
      ∀ b, Final sc cfg = some b →
        (b = true ↔ ∃ q, Reach sc (s.take i) q ∧ sc.m_finals[q]? = some true)) ∧
    (Invariants sc → (∀ c ∈ s, c < sc.m_letters.length) →
      ∃ cfg b, scan sc (Initialize sc cfg0) (s.take i) = some cfg ∧ Final sc cfg = some b) := by
  constructor
  · intro cfg hcfg
    have hreach : ∀ q, q ∈ cfg.states ↔ Reach sc (s.take i) q := by
      intro q
      rw [scan_path sc _ _ cfg hcfg q]
      simp [Initialize, Reach]
    refine ⟨hreach, fun b hb => ?_⟩
    rw [finalLoop_some sc cfg.states b hb]
    constructor
    · rintro ⟨q, hq, hf⟩
      exact ⟨q, (hreach q).1 hq, hf⟩
    · rintro ⟨q, hq, hf⟩
      exact ⟨q, (hreach q).2 hq, hf⟩
  · intro hinv hs
    have hinit : ∀ p ∈ (Initialize sc cfg0).states, p < sc.m.statesCount := by
      intro p hp
      simp only [Initialize, List.mem_singleton] at hp
      subst hp
      exact hinv.start_lt
    obtain ⟨cfg, hcfg, hlt⟩ := scan_total sc hinv (s.take i)
      (fun c hc => hs c (List.mem_of_mem_take hc)) _ hinit
    obtain ⟨b, hb⟩ := finalLoop_total sc cfg.states (fun p hp => by
      rw [hinv.finals_len]
      exact hlt p hp)
    exact ⟨cfg, b, hcfg, hb⟩

theorem scan_states_reachable_witness :
    Invariants abScanner ∧ (∀ c ∈ [97, 97, 98], c < abScanner.m_letters.length) ∧
    scan abScanner (Initialize abScanner State.empty) ([97, 97, 98].take 3) =
      some ⟨[2], ⟨[false, false, true]⟩⟩ ∧
    (∀ q, q ∈ [2] ↔ Reach abScanner ([97, 97, 98].take 3) q) ∧
    ∃ cfg b, scan abScanner (Initialize abScanner State.empty) ([97, 97, 98].take 3) = some cfg ∧
      Final abScanner cfg = some b :=
  have hs : ∀ c ∈ [97, 97, 98], c < abScanner.m_letters.length := by
    intro c hc
    show c < abLetters.length
    rw [abLetters_length]
    simp only [List.mem_cons, List.mem_singleton, List.not_mem_nil, or_false] at hc
    omega
  have hscan : scan abScanner (Initialize abScanner State.empty) ([97, 97, 98].take 3) =
      some ⟨[2], ⟨[false, false, true]⟩⟩ := abScanner_scan_aab
  ⟨abScanner_invariants, hs, hscan,
    ((scan_states_reachable abScanner [97, 97, 98] 3 State.empty).1 _ hscan).1,
    (scan_states_reachable abScanner [97, 97, 98] 3 State.empty).2 abScanner_invariants hs⟩

/-- C2: whatever the current configuration holds (repeated entries included) and
whatever the symbol, the state list that `Next` leaves in `out` contains no state
index twice, also when several active states lead to one destination or one row
lists a destination more than once. -/
theorem Next_states_nodup (sc : SlowScanner) (current out out' : State) (c a : Nat)
    (h : Next sc current out c = some (out', a)) : out'.states.Nodup := by
  obtain ⟨l, ds, -, -, -, hout, -⟩ := Next_some sc current out out' c a h
  subst hout
  exact firstOcc_nodup ds

theorem Next_states_nodup_witness :
    Next dupScanner ⟨[0, 2, 0], BitSet.ofSize 0⟩ ⟨[7, 7], ⟨[true, true, true]⟩⟩ 1 =
        some (⟨[1, 0, 2], ⟨[true, true, true]⟩⟩, 0) ∧
      ([1, 0, 2] : List Nat).Nodup :=
  ⟨by decide, Next_states_nodup dupScanner ⟨[0, 2, 0], BitSet.ofSize 0⟩
    ⟨[7, 7], ⟨[true, true, true]⟩⟩ ⟨[1, 0, 2], ⟨[true, true, true]⟩⟩ 1 0 (by decide)⟩

/-! ## Letters, `Final` and the example -/

theorem clear_eq_ofSize (b : BitSet) : b.Clear = BitSet.ofSize b.Size := rfl

theorem destsOf_nil_of_rows (sc : SlowScanner) (l : Nat) (ss : List Nat)
    (h : ∀ s ∈ ss, destRange sc s l = some []) : destsOf sc l ss = some [] := by
  induction ss with
  | nil => rfl
  | cons s rest ih =>
    simp only [destsOf, h s (List.mem_cons_self _ _),
      ih (fun s' hs' => h s' (List.mem_cons_of_mem _ hs'))]
    rfl

/-- C3: with `l = letters[c]`, `Next(current, out, c)` completes exactly when every
active state has a destination row for `l` and every destination is a bit of
`out`'s bitset; it then returns action 0 and leaves in `out` the first-occurrence
deduplication of the concatenation of the rows of the active states, in list
order, whatever `out` held before (only the size of its bitset matters).  When
every row is empty, `out.states` is left empty. -/
theorem Next_states_firstOcc (sc : SlowScanner) (current out : State) (c l : Nat)
    (hl : sc.m_letters[c]? = some l) :
    Next sc current out c =
        (destsOf sc l current.states).bind (fun ds =>
          if ∀ d ∈ ds, d < out.flags.Size then
            some (⟨firstOcc ds, markAll (BitSet.ofSize out.flags.Size) ds⟩, 0)
          else none) ∧
      ((∀ s ∈ current.states, destRange sc s l = some []) →
        Next sc current out c = some (⟨[], BitSet.ofSize out.flags.Size⟩, 0)) := by
  have key : Next sc current out c =
      (destsOf sc l current.states).bind (fun ds =>
        if ∀ d ∈ ds, d < out.flags.Size then
          some (⟨firstOcc ds, markAll (BitSet.ofSize out.flags.Size) ds⟩, 0)
        else none) := by
    rw [Next_eq, clear_eq_ofSize]
    simp only [hl]
    cases destsOf sc l current.states with
    | none => rfl
    | some ds => rfl
  refine ⟨key, fun hrows => ?_⟩
  rw [key, destsOf_nil_of_rows sc l _ hrows]
  simp [firstOcc, markAll]

theorem Next_states_firstOcc_witness :
    dupScanner.m_letters[1]? = some 0 ∧
    destsOf dupScanner 0 [0, 2, 0] = some [1, 1, 0, 1, 2, 1, 1, 0] ∧
    firstOcc [1, 1, 0, 1, 2, 1, 1, 0] = [1, 0, 2] ∧
    (Next dupScanner ⟨[0, 2, 0], BitSet.ofSize 0⟩ ⟨[7, 7], ⟨[true, true, true]⟩⟩ 1 =
        (destsOf dupScanner 0 [0, 2, 0]).bind (fun ds =>
          if ∀ d ∈ ds, d < 3 then some (⟨firstOcc ds, markAll (BitSet.ofSize 3) ds⟩, 0)
          else none) ∧
      ((∀ s ∈ [0, 2, 0], destRange dupScanner s 0 = some []) →
        Next dupScanner ⟨[0, 2, 0], BitSet.ofSize 0⟩ ⟨[7, 7], ⟨[true, true, true]⟩⟩ 1 =
          some (⟨[], BitSet.ofSize 3⟩, 0))) :=
  ⟨by decide, by decide, by decide,
    Next_states_firstOcc dupScanner ⟨[0, 2, 0], BitSet.ofSize 0⟩
      ⟨[7, 7], ⟨[true, true, true]⟩⟩ 1 0 (by decide)⟩

theorem Next_congr_letter (sc : SlowScanner) (c1 c2 : Nat)
    (h : sc.m_letters[c1]? = sc.m_letters[c2]?) (current out : State) :
    Next sc current out c1 = Next sc current out c2 := by
  unfold Next
  rw [h]

theorem configs_congr_letter (sc : SlowScanner) (c1 c2 : Nat)
    (h : sc.m_letters[c1]? = sc.m_letters[c2]?) (w1 w2 : List Nat)
    (hw : List.Forall₂ (fun a b => a = b ∨ (a = c1 ∧ b = c2)) w1 w2) (s : State) :
    configs sc s w1 = configs sc s w2 := by
  induction hw generalizing s with
  | nil => rfl
  | @cons a b l1 l2 hab _ ih =>
    have hstep : ∀ s, NextInPlace sc s a = NextInPlace sc s b := fun s => by
      rcases hab with rfl | ⟨rfl, rfl⟩
      · rfl
      · rw [NextInPlace_eq, NextInPlace_eq, Next_congr_letter sc _ _ h]
    simp only [configs, hstep, ih]

/-- C5: two raw symbols with the same letter give the same `out` configuration from
`Next`, for every current configuration; and an input string in which `c1` is
replaced by `c2` at any positions goes through the same sequence of
configurations, from `Initialize` or from any other configuration. -/
theorem Next_same_letter (sc : SlowScanner) (c1 c2 : Nat)
    (h : sc.m_letters[c1]? = sc.m_letters[c2]?) :
    (∀ current out, Next sc current out c1 = Next sc current out c2) ∧
      ∀ (w1 w2 : List Nat), List.Forall₂ (fun a b => a = b ∨ (a = c1 ∧ b = c2)) w1 w2 →
        ∀ s, configs sc s w1 = configs sc s w2 :=
  ⟨Next_congr_letter sc c1 c2 h, configs_congr_letter sc c1 c2 h⟩

set_option maxRecDepth 4000 in
theorem abLetters_xy : abScanner.m_letters[120]? = abScanner.m_letters[121]? := by rfl

theorem Next_same_letter_witness :
    abScanner.m_letters[120]? = abScanner.m_letters[121]? ∧
    ((∀ current out, Next abScanner current out 120 = Next abScanner current out 121) ∧
      ∀ (w1 w2 : List Nat), List.Forall₂ (fun a b => a = b ∨ (a = 120 ∧ b = 121)) w1 w2 →
        ∀ s, configs abScanner s w1 = configs abScanner s w2) :=
  ⟨abLetters_xy, Next_same_letter abScanner 120 121 abLetters_xy⟩

/-- C6: whenever `Final(cfg)` returns, it returns true iff a state of `cfg.states`
is marked in the finals table; it does return when the finals table has
`statesCount` entries and the states of `cfg` are all below `statesCount`;
`CanStop(cfg)` equals `Final(cfg)`; and `Final` of a configuration with an empty
state list is false. -/
theorem Final_iff_marked (sc : SlowScanner) (cfg : State) :
    (∀ b, Final sc cfg = some b →
      (b = true ↔ ∃ s ∈ cfg.states, sc.m_finals[s]? = some true)) ∧
    (sc.m_finals.length = sc.m.statesCount → (∀ s ∈ cfg.states, s < sc.m.statesCount) →
      ∃ b, Final sc cfg = some b) ∧
    CanStop sc cfg = Final sc cfg ∧ ∀ flags, Final sc ⟨[], flags⟩ = some false := by
  refine ⟨fun b hb => finalLoop_some sc cfg.states b hb, fun hlen hcfg => ?_, rfl, fun _ => rfl⟩
  exact finalLoop_total sc cfg.states (fun s hs => hlen ▸ hcfg s hs)

theorem Final_iff_marked_witness :
    abScanner.m_finals.length = abScanner.m.statesCount ∧
    (∀ s ∈ (State.mk [1, 2, 0] (BitSet.ofSize 0)).states, s < abScanner.m.statesCount) ∧
    Final abScanner ⟨[1, 2, 0], BitSet.ofSize 0⟩ = some true ∧
    (∃ s ∈ (State.mk [1, 2, 0] (BitSet.ofSize 0)).states, abScanner.m_finals[s]? = some true) ∧
    ∃ b, Final abScanner ⟨[1, 2, 0], BitSet.ofSize 0⟩ = some b :=
  ⟨by decide, by decide, by decide,
    ((Final_iff_marked abScanner ⟨[1, 2, 0], BitSet.ofSize 0⟩).1 true (by decide)).1 rfl,
    (Final_iff_marked abScanner ⟨[1, 2, 0], BitSet.ofSize 0⟩).2.1 (by decide) (by decide)⟩

/-- C7: `AcceptedRegexps(cfg)` is the empty range exactly when `Final(cfg)` is false
and the range holding only the id 0 exactly when `Final(cfg)` is true; every id
it returns is below `RegexpsCount()`, which is 1. -/
theorem AcceptedRegexps_iff_Final (sc : SlowScanner) (cfg : State) :
    ((∃ r, AcceptedRegexps sc cfg = some r ∧ r.ids = []) ↔ Final sc cfg = some false) ∧
    ((∃ r, AcceptedRegexps sc cfg = some r ∧ r.ids = [0]) ↔ Final sc cfg = some true) ∧
    (∀ r, AcceptedRegexps sc cfg = some r → ∀ id ∈ r.ids, id < RegexpsCount sc) ∧
    RegexpsCount sc = 1 := by
  unfold AcceptedRegexps RegexpsCount
  cases h : Final sc cfg with
  | none => simp
  | some b =>
    cases b <;> simp [Accept, Deny, IdRange.ids]

/-- C8: when the initial state is marked in the finals table, `CanStop` and `Final`
of the configuration that `Initialize` produces are true, whatever the
configuration held before. -/
theorem CanStop_Initialize (sc : SlowScanner) (cfg0 : State)
    (h : sc.m_finals[sc.m.start]? = some true) :
    CanStop sc (Initialize sc cfg0) = some true ∧ Final sc (Initialize sc cfg0) = some true := by
  simp [CanStop, Final, Initialize, finalLoop, h]

theorem CanStop_Initialize_witness :
    dupScanner.m_finals[1]? = some true ∧
    CanStop { dupScanner with m := ⟨3, 1, 1⟩ }
        (Initialize { dupScanner with m := ⟨3, 1, 1⟩ } ⟨[5, 5], BitSet.ofSize 1⟩) = some true ∧
      Final { dupScanner with m := ⟨3, 1, 1⟩ }
        (Initialize { dupScanner with m := ⟨3, 1, 1⟩ } ⟨[5, 5], BitSet.ofSize 1⟩) = some true :=
  ⟨by decide, CanStop_Initialize { dupScanner with m := ⟨3, 1, 1⟩ } ⟨[5, 5], BitSet.ofSize 1⟩
    (by decide)⟩

theorem Initialize_eq (sc : SlowScanner) (cfg0 : State) :
    Initialize sc cfg0 = ⟨[sc.m.start], BitSet.ofSize sc.m.statesCount⟩ := rfl

set_option maxRecDepth 4000 in
theorem abScanner_trace :
    (configs abScanner ⟨[abScanner.m.start], BitSet.ofSize abScanner.m.statesCount⟩ [98, 97]).map
        (List.map (fun s => (s.states, Final abScanner s))) =
      some [([0], some false), ([0], some false), ([1], some false)] ∧
    (configs abScanner ⟨[abScanner.m.start], BitSet.ofSize abScanner.m.statesCount⟩ [97, 98]).map
        (List.map (fun s => (s.states, Final abScanner s))) =
      some [([0], some false), ([1], some false), ([2], some true)] ∧
    (configs abScanner ⟨[abScanner.m.start], BitSet.ofSize abScanner.m.statesCount⟩
        [97, 97, 98]).map (List.map (fun s => (s.states, Final abScanner s))) =
      some [([0], some false), ([1], some false), ([1], some false), ([2], some true)] := by
  decide

set_option maxRecDepth 4000 in
theorem abScannerFlat_trace :
    (configs abScannerFlat ⟨[abScannerFlat.m.start], BitSet.ofSize abScannerFlat.m.statesCount⟩
        [98, 97]).map (List.map (fun s => (s.states, Final abScannerFlat s))) =
      some [([0], some false), ([0], some false), ([1], some false)] ∧
    (configs abScannerFlat ⟨[abScannerFlat.m.start], BitSet.ofSize abScannerFlat.m.statesCount⟩
        [97, 98]).map (List.map (fun s => (s.states, Final abScannerFlat s))) =
      some [([0], some false), ([1], some false), ([2], some true)] ∧
    (configs abScannerFlat ⟨[abScannerFlat.m.start], BitSet.ofSize abScannerFlat.m.statesCount⟩
        [97, 97, 98]).map (List.map (fun s => (s.states, Final abScannerFlat s))) =
      some [([0], some false), ([1], some false), ([1], some false), ([2], some true)] := by
  decide

/-- C9, as the code has it: the example scanner (dense, and flattened alike)
scanning "ba" goes through the configurations {0}, {0}, {1} (the `a` leads from 0
to 1) and `Final` is false at every position; scanning "ab" it goes through {0},
{1}, {2} with `Final` true after 2 symbols and not before; scanning "aab" it goes
through {0}, {1}, {1}, {2} with `Final` true after 3 symbols and not before. -/
theorem abScanner_scans (cfg0 : State) :
    ((configs abScanner (Initialize abScanner cfg0) [98, 97]).map
        (List.map (fun s => (s.states, Final abScanner s))) =
      some [([0], some false), ([0], some false), ([1], some false)] ∧
    (configs abScanner (Initialize abScanner cfg0) [97, 98]).map
        (List.map (fun s => (s.states, Final abScanner s))) =
      some [([0], some false), ([1], some false), ([2], some true)] ∧
    (configs abScanner (Initialize abScanner cfg0) [97, 97, 98]).map
        (List.map (fun s => (s.states, Final abScanner s))) =
      some [([0], some false), ([1], some false), ([1], some false), ([2], some true)]) ∧
    ((configs abScannerFlat (Initialize abScannerFlat cfg0) [98, 97]).map
        (List.map (fun s => (s.states, Final abScannerFlat s))) =
      some [([0], some false), ([0], some false), ([1], some false)] ∧
    (configs abScannerFlat (Initialize abScannerFlat cfg0) [97, 98]).map
        (List.map (fun s => (s.states, Final abScannerFlat s))) =
      some [([0], some false), ([1], some false), ([2], some true)] ∧
    (configs abScannerFlat (Initialize abScannerFlat cfg0) [97, 97, 98]).map
        (List.map (fun s => (s.states, Final abScannerFlat s))) =
      some [([0], some false), ([1], some false), ([1], some false), ([2], some true)]) := by
  simp only [Initialize_eq]
  exact ⟨abScanner_trace, abScannerFlat_trace⟩

/-- C9 as stated fails: after the two symbols of "ba" the configuration of the
example scanner is {1}, not {0}. -/
theorem abScanner_ba_leaves_zero :
    ¬ ∀ cfgs, configs abScanner (Initialize abScanner State.empty) [98, 97] = some cfgs →
      ∀ s ∈ cfgs, s.states = [0] := by
  intro h
  have h1 := abScanner_trace.1
  rw [← Initialize_eq abScanner State.empty] at h1
  cases hc : configs abScanner (Initialize abScanner State.empty) [98, 97] with
  | none => simp [hc] at h1
  | some cfgs =>
    have h2 := h cfgs hc
    simp only [hc, Option.map_some', Option.some.injEq] at h1
    have h3 : cfgs.map (fun s => s.states) = [[0], [0], [1]] := by
      have := congrArg (List.map Prod.fst) h1
      simpa [List.map_map, Function.comp_def] using this
    have h4 : cfgs.map (fun s => s.states) = cfgs.map (fun _ => [0]) :=
      List.map_congr_left h2
    rw [h3] at h4
    have h5 := congrArg List.length h4
    simp only [List.length_map, List.length_cons, List.length_nil] at h5
    match cfgs, h5, h4 with
    | [a, b, c], _, h4 => simp at h4

/-! ## Dense and flattened storage -/

theorem destsOf_congr (sc₁ sc₂ : SlowScanner) (l : Nat) (ss : List Nat)
    (h : ∀ s, destRange sc₁ s l = destRange sc₂ s l) : destsOf sc₁ l ss = destsOf sc₂ l ss := by
  induction ss with
  | nil => rfl
  | cons s rest ih => simp only [destsOf, h, ih]

theorem Next_congr (sc₁ sc₂ : SlowScanner) (hl : sc₁.m_letters = sc₂.m_letters)
    (h : ∀ s l, destRange sc₁ s l = destRange sc₂ s l) (current out : State) (c : Nat) :
    Next sc₁ current out c = Next sc₂ current out c := by
  rw [Next_eq, Next_eq, hl]
  cases sc₂.m_letters[c]? with
  | none => rfl
  | some l => simp only [destsOf_congr sc₁ sc₂ l _ (fun s => h s l)]

theorem scan_congr (sc₁ sc₂ : SlowScanner) (hm : sc₁.m = sc₂.m)
    (hl : sc₁.m_letters = sc₂.m_letters)
    (h : ∀ s l, destRange sc₁ s l = destRange sc₂ s l) (input : List Nat) (s : State) :
    scan sc₁ s input = scan sc₂ s input := by
  induction input generalizing s with
  | nil => rfl
  | cons c cs ih =>
    simp only [scan, NextInPlace_eq, hm, Next_congr sc₁ sc₂ hl h, ih]

theorem Final_congr (sc₁ sc₂ : SlowScanner) (hf : sc₁.m_finals = sc₂.m_finals) (s : State) :
    Final sc₁ s = Final sc₂ s := by
  unfold Final
  induction s.states with
  | nil => rfl
  | cons it rest ih => simp only [finalLoop, hf, ih]

theorem index_split (i sC lC : Nat) (hi : i < sC * lC) :
    ∃ s l, s < sC ∧ l < lC ∧ i = s * lC + l := by
  have hpos : 0 < lC := by
    rcases Nat.eq_zero_or_pos lC with h | h
    · subst h
      simp at hi
    · exact h
  refine ⟨i / lC, i % lC, ?_, Nat.mod_lt _ hpos, ?_⟩
  · exact Nat.div_lt_of_lt_mul (by rwa [Nat.mul_comm] at hi)
  · rw [Nat.mul_comm]
    exact (Nat.div_add_mod i lC).symm

theorem destsOf_mono (sc₁ sc₂ : SlowScanner) (l : Nat) (ss ds : List Nat)
    (h : ∀ s row, destRange sc₁ s l = some row → destRange sc₂ s l = some row)
    (hd : destsOf sc₁ l ss = some ds) : destsOf sc₂ l ss = some ds := by
  induction ss generalizing ds with
  | nil => exact hd
  | cons s rest ih =>
    simp only [destsOf] at hd ⊢
    cases h1 : destRange sc₁ s l with
    | none => simp [h1] at hd
    | some row =>
      cases h2 : destsOf sc₁ l rest with
      | none => simp [h1, h2] at hd
      | some ds' =>
        simp only [h1, h2] at hd
        simp only [h s row h1, ih ds' h2]
        exact hd

theorem Next_mono (sc₁ sc₂ : SlowScanner) (hl : sc₁.m_letters = sc₂.m_letters)
    (h : ∀ s l row, destRange sc₁ s l = some row → destRange sc₂ s l = some row)
    (current out : State) (c : Nat) (r : State × Nat) (hr : Next sc₁ current out c = some r) :
    Next sc₂ current out c = some r := by
  obtain ⟨o, a⟩ := r
  obtain ⟨l, ds, hl', hds, hlt, ho, ha⟩ := Next_some sc₁ current out o c a hr
  rw [Next_eq, ← hl, hl']
  simp only [destsOf_mono sc₁ sc₂ l _ ds (h · l) hds]
  rw [if_pos hlt, ho, ha]

theorem scan_mono (sc₁ sc₂ : SlowScanner) (hm : sc₁.m = sc₂.m)
    (hl : sc₁.m_letters = sc₂.m_letters)
    (h : ∀ s l row, destRange sc₁ s l = some row → destRange sc₂ s l = some row)
    (input : List Nat) (s cfg : State) (hs : scan sc₁ s input = some cfg) :
    scan sc₂ s input = some cfg := by
  induction input generalizing s with
  | nil => exact hs
  | cons c cs ih =>
    simp only [scan] at hs ⊢
    cases hn : NextInPlace sc₁ s c with
    | none => simp [hn] at hs
    | some r =>
      simp only [hn] at hs
      rw [NextInPlace_eq] at hn
      rw [NextInPlace_eq, ← hm, Next_mono sc₁ sc₂ hl h s _ c r hn]
      exact ih _ hs

/-- C4: let `D` be a non-empty dense table of `statesCount * lettersCount` rows and
`(offset, targets)` a flattened pair in which, for every row index
`i = state * lettersCount + letter`, the slice `targets[offset[i] .. offset[i+1])`
is `D[i]`; take the scanner on `D` and the scanner on `(offset, targets)`, with
the same header, letter table and finals table.  Every `out` configuration that
`Next` computes on `D` it computes on `(offset, targets)`, for every current
configuration and symbol, and every `Final` value after an input string from
`Initialize` is the same.  When the offset array has its
`statesCount * lettersCount + 1` entries the two scanners also leave their tables
on the same calls, so `Next` and `Final` after a scan are equal outright. -/
theorem dense_flat_equiv (m : Locals) (finals : List Bool) (letters : List Nat)
    (D : List (List Nat)) (offset targets : List Nat) (jumps₀ jumpPos₀ pool₁ pool₂ : List Nat)
    (hne : D ≠ []) (hlen : D.length = m.statesCount * m.lettersCount)
    (hrow : ∀ state letter, state < m.statesCount → letter < m.lettersCount →
      ∃ b e, offset[state * m.lettersCount + letter]? = some b ∧
        offset[state * m.lettersCount + letter + 1]? = some e ∧ b ≤ e ∧ e ≤ targets.length ∧
        D[state * m.lettersCount + letter]? = some ((targets.drop b).take (e - b))) :
    (∀ current out c r,
      Next ⟨m, finals, jumps₀, jumpPos₀, letters, pool₁, D⟩ current out c = some r →
        Next ⟨m, finals, targets, offset, letters, pool₂, []⟩ current out c = some r) ∧
    (∀ cfg0 input b,
      (scan ⟨m, finals, jumps₀, jumpPos₀, letters, pool₁, D⟩
          (Initialize ⟨m, finals, jumps₀, jumpPos₀, letters, pool₁, D⟩ cfg0) input).bind
          (Final ⟨m, finals, jumps₀, jumpPos₀, letters, pool₁, D⟩) = some b →
        (scan ⟨m, finals, targets, offset, letters, pool₂, []⟩
          (Initialize ⟨m, finals, targets, offset, letters, pool₂, []⟩ cfg0) input).bind
          (Final ⟨m, finals, targets, offset, letters, pool₂, []⟩) = some b) ∧
    (offset.length = m.statesCount * m.lettersCount + 1 →
      (∀ current out c,
        Next ⟨m, finals, jumps₀, jumpPos₀, letters, pool₁, D⟩ current out c =
          Next ⟨m, finals, targets, offset, letters, pool₂, []⟩ current out c) ∧
      ∀ cfg0 input,
        (scan ⟨m, finals, jumps₀, jumpPos₀, letters, pool₁, D⟩
            (Initialize ⟨m, finals, jumps₀, jumpPos₀, letters, pool₁, D⟩ cfg0) input).bind
            (Final ⟨m, finals, jumps₀, jumpPos₀, letters, pool₁, D⟩) =
          (scan ⟨m, finals, targets, offset, letters, pool₂, []⟩
            (Initialize ⟨m, finals, targets, offset, letters, pool₂, []⟩ cfg0) input).bind
            (Final ⟨m, finals, targets, offset, letters, pool₂, []⟩)) := by
  have hD : D.isEmpty = false := by
    cases D with
    | nil => exact absurd rfl hne
    | cons a b => rfl
  have hF : Final ⟨m, finals, jumps₀, jumpPos₀, letters, pool₁, D⟩ =
      Final ⟨m, finals, targets, offset, letters, pool₂, []⟩ :=
    funext (Final_congr ⟨m, finals, jumps₀, jumpPos₀, letters, pool₁, D⟩
      ⟨m, finals, targets, offset, letters, pool₂, []⟩ rfl)
  have hin : ∀ s l, s * m.lettersCount + l < D.length →
      destRange ⟨m, finals, jumps₀, jumpPos₀, letters, pool₁, D⟩ s l =
        destRange ⟨m, finals, targets, offset, letters, pool₂, []⟩ s l := by
    intro s l hi
    simp only [destRange, hD, List.isEmpty_nil, if_true, Bool.false_eq_true, if_false]
    obtain ⟨s', l', hs', hl', heq⟩ := index_split _ _ _ (hlen ▸ hi)
    obtain ⟨b, e, hb, he, hbe, het, hslice⟩ := hrow s' l' hs' hl'
    rw [← heq] at hb he hslice
    rw [hb, he, hslice]
    simp only
    rw [if_pos ⟨hbe, het⟩]
  have hmono : ∀ s l row,
      destRange ⟨m, finals, jumps₀, jumpPos₀, letters, pool₁, D⟩ s l = some row →
        destRange ⟨m, finals, targets, offset, letters, pool₂, []⟩ s l = some row := by
    intro s l row hrow'
    have hi : s * m.lettersCount + l < D.length := by
      simp only [destRange, hD, Bool.false_eq_true, if_false] at hrow'
      exact (List.getElem?_eq_some.1 hrow').1
    rw [← hin s l hi]
    exact hrow'
  refine ⟨Next_mono ⟨m, finals, jumps₀, jumpPos₀, letters, pool₁, D⟩
    ⟨m, finals, targets, offset, letters, pool₂, []⟩ rfl hmono, fun cfg0 input b hb => ?_,
    fun hoff => ?_⟩
  · cases hs : scan ⟨m, finals, jumps₀, jumpPos₀, letters, pool₁, D⟩
        (Initialize ⟨m, finals, jumps₀, jumpPos₀, letters, pool₁, D⟩ cfg0) input with
    | none => simp [hs] at hb
    | some cfg =>
      rw [hs] at hb
      have hs' := scan_mono ⟨m, finals, jumps₀, jumpPos₀, letters, pool₁, D⟩
        ⟨m, finals, targets, offset, letters, pool₂, []⟩ rfl rfl hmono input _ cfg hs
      have hI : Initialize ⟨m, finals, targets, offset, letters, pool₂, []⟩ cfg0 =
          Initialize ⟨m, finals, jumps₀, jumpPos₀, letters, pool₁, D⟩ cfg0 := rfl
      rw [hI, hs', ← hF]
      exact hb
  · have hrows : ∀ s l,
        destRange ⟨m, finals, jumps₀, jumpPos₀, letters, pool₁, D⟩ s l =
          destRange ⟨m, finals, targets, offset, letters, pool₂, []⟩ s l := by
      intro s l
      by_cases hi : s * m.lettersCount + l < D.length
      · exact hin s l hi
      · simp only [destRange, hD, List.isEmpty_nil, if_true, Bool.false_eq_true, if_false]
        rw [List.getElem?_eq_none (Nat.le_of_not_lt hi)]
        have : offset[s * m.lettersCount + l + 1]? = none :=
          List.getElem?_eq_none (by omega)
        rw [this]
        cases offset[s * m.lettersCount + l]? <;> rfl
    refine ⟨Next_congr ⟨m, finals, jumps₀, jumpPos₀, letters, pool₁, D⟩
      ⟨m, finals, targets, offset, letters, pool₂, []⟩ rfl hrows, fun cfg0 input => ?_⟩
    rw [scan_congr ⟨m, finals, jumps₀, jumpPos₀, letters, pool₁, D⟩
      ⟨m, finals, targets, offset, letters, pool₂, []⟩ rfl rfl hrows, hF]
    rfl

theorem dense_flat_equiv_witness :
    abScanner.m_vec ≠ [] ∧
    (∀ current out c r, Next abScanner current out c = some r →
      Next abScannerFlat current out c = some r) ∧
    (∀ cfg0 input b,
      (scan abScanner (Initialize abScanner cfg0) input).bind (Final abScanner) = some b →
        (scan abScannerFlat (Initialize abScannerFlat cfg0) input).bind (Final abScannerFlat) =
          some b) ∧
    (abScannerFlat.m_jumpPos.length = 3 * 3 + 1 →
      (∀ current out c, Next abScanner current out c = Next abScannerFlat current out c) ∧
      ∀ cfg0 input,
        (scan abScanner (Initialize abScanner cfg0) input).bind (Final abScanner) =
          (scan abScannerFlat (Initialize abScannerFlat cfg0) input).bind
            (Final abScannerFlat)) :=
  ⟨by decide,
    dense_flat_equiv ⟨3, 3, 0⟩ [false, false, true] abLetters
      [[0], [1], [0], [0], [1], [2], [2], [2], [2]] [0, 1, 2, 3, 4, 5, 6, 7, 8, 9]
      [0, 1, 0, 0, 1, 2, 2, 2, 2] [] [] [0, 1] [] (by decide) (by decide)
      (by
        intro state letter hs hl
        have hs' : state < 3 := hs
        have hl' : letter < 3 := hl
        interval_cases state <;> interval_cases letter <;>
          exact ⟨_, _, rfl, rfl, by decide, by decide, rfl⟩)⟩

/-! ## The order of the `SetJump` calls -/

theorem Next_isSome_iff (sc : SlowScanner) (cur out : State) (c : Nat) :
    (∃ r, Next sc cur out c = some r) ↔
      ∃ l, sc.m_letters[c]? = some l ∧
        (∀ s ∈ cur.states, ∃ row, destRange sc s l = some row) ∧
        ∀ d, (∃ s ∈ cur.states, ∃ row, destRange sc s l = some row ∧ d ∈ row) →
          d < out.flags.Size := by
  rw [Next_eq]
  cases hl : sc.m_letters[c]? with
  | none => simp
  | some l =>
    simp only [Option.some.injEq, exists_eq_left', ← destsOf_some_iff]
    cases hd : destsOf sc l cur.states with
    | none => simp
    | some ds =>
      simp only [Option.some.injEq, exists_eq', true_and]
      have hmem := destsOf_mem sc l cur.states ds hd
      by_cases hc : ∀ d ∈ ds, d < out.flags.Size
      · rw [if_pos hc]
        simp only [Option.some.injEq, exists_eq', true_iff]
        intro d hd'
        exact hc d ((hmem d).2 hd')
      · rw [if_neg hc]
        constructor
        · rintro ⟨r, hr⟩
          cases hr
        · intro h
          exact absurd (fun d hd' => h d ((hmem d).1 hd')) hc

theorem Next_mem (sc : SlowScanner) (cur out o : State) (c a : Nat)
    (h : Next sc cur out c = some (o, a)) (q : Nat) :
    q ∈ o.states ↔ ∃ l, sc.m_letters[c]? = some l ∧
      ∃ s ∈ cur.states, ∃ row, destRange sc s l = some row ∧ q ∈ row := by
  obtain ⟨l, ds, hl, hds, -, ho, -⟩ := Next_some sc cur out o c a h
  subst ho
  simp only [firstOcc_mem, destsOf_mem sc l cur.states ds hds, hl, Option.some.injEq,
    exists_eq_left']

theorem NextInPlace_agree_some (sc₁ sc₂ : SlowScanner) (h : RowsAgree sc₁ sc₂) (a b : State)
    (hab : ∀ q, q ∈ a.states ↔ q ∈ b.states) (c : Nat) :
    (∃ r, NextInPlace sc₁ a c = some r) ↔ (∃ r, NextInPlace sc₂ b c = some r) := by
  simp only [NextInPlace_eq, Next_isSome_iff, h.hl, h.hm, hab, h.rows_some, h.rows_mem]

theorem NextInPlace_agree_mem (sc₁ sc₂ : SlowScanner) (h : RowsAgree sc₁ sc₂) (a b a' b' : State)
    (hab : ∀ q, q ∈ a.states ↔ q ∈ b.states) (c x y : Nat)
    (h₁ : NextInPlace sc₁ a c = some (a', x)) (h₂ : NextInPlace sc₂ b c = some (b', y)) :
    (∀ q, q ∈ a'.states ↔ q ∈ b'.states) ∧ ∀ q ∈ a'.states, q < sc₁.m.statesCount := by
  rw [NextInPlace_eq] at h₁ h₂
  constructor
  · intro q
    rw [Next_mem sc₁ a _ a' c x h₁ q, Next_mem sc₂ b _ b' c y h₂ q]
    simp only [h.hl, hab, h.rows_mem]
  · have := Next_states_lt sc₁ a _ a' c x h₁
    rwa [ofSize_size] at this

theorem finalLoop_congr (sc₁ sc₂ : SlowScanner) (hf : sc₁.m_finals = sc₂.m_finals)
    (ss : List Nat) : finalLoop sc₁ ss = finalLoop sc₂ ss := by
  induction ss with
  | nil => rfl
  | cons it rest ih => simp only [finalLoop, hf, ih]

theorem Final_agree (sc₁ sc₂ : SlowScanner) (hf : sc₁.m_finals = sc₂.m_finals)
    (hfin : sc₁.m_finals.length = sc₁.m.statesCount) (a b : State)
    (hab : ∀ q, q ∈ a.states ↔ q ∈ b.states)
    (hlt : a.states = b.states ∨ ∀ q ∈ a.states, q < sc₁.m.statesCount) :
    Final sc₁ a = Final sc₂ b := by
  unfold Final
  rcases hlt with heq | hlt
  · rw [heq, finalLoop_congr sc₁ sc₂ hf]
  · obtain ⟨x, hx⟩ := finalLoop_total sc₁ a.states (fun s hs => hfin ▸ hlt s hs)
    obtain ⟨y, hy⟩ := finalLoop_total sc₂ b.states (fun s hs => by
      rw [← hf, hfin]
      exact hlt s ((hab s).2 hs))
    have hx' := finalLoop_some sc₁ a.states x hx
    have hy' := finalLoop_some sc₂ b.states y hy
    rw [hx, hy]
    have : x = true ↔ y = true := by
      rw [hx', hy', hf]
      simp only [hab]
    cases x <;> cases y <;> simp_all

theorem scan_agree (sc₁ sc₂ : SlowScanner) (h : RowsAgree sc₁ sc₂)
    (hfin : sc₁.m_finals.length = sc₁.m.statesCount) (input : List Nat) (a b : State)
    (hab : ∀ q, q ∈ a.states ↔ q ∈ b.states)
    (hlt : a.states = b.states ∨ ∀ q ∈ a.states, q < sc₁.m.statesCount) :
    SameOutcome sc₁ sc₂ (scan sc₁ a input) (scan sc₂ b input) := by
  induction input generalizing a b with
  | nil => exact ⟨hab, Final_agree sc₁ sc₂ h.hf hfin a b hab hlt⟩
  | cons c cs ih =>
    have hsome := NextInPlace_agree_some sc₁ sc₂ h a b hab c
    simp only [scan]
    cases h₁ : NextInPlace sc₁ a c with
    | none =>
      cases h₂ : NextInPlace sc₂ b c with
      | none => trivial
      | some r =>
        obtain ⟨r', hr'⟩ := hsome.2 ⟨r, h₂⟩
        rw [h₁] at hr'
        cases hr'
    | some r₁ =>
      cases h₂ : NextInPlace sc₂ b c with
      | none =>
        obtain ⟨r', hr'⟩ := hsome.1 ⟨r₁, h₁⟩
        rw [h₂] at hr'
        cases hr'
      | some r₂ =>
        obtain ⟨a', x⟩ := r₁
        obtain ⟨b', y⟩ := r₂
        obtain ⟨hab', hlt'⟩ := NextInPlace_agree_mem sc₁ sc₂ h a b a' b' hab c x y h₁ h₂
        exact ih a' b' hab' (Or.inr hlt')

theorem isEmpty_eq_false_of_ne {α : Type} (xs : List α) (h : xs ≠ []) : xs.isEmpty = false := by
  cases xs with
  | nil => exact absurd rfl h
  | cons a b => rfl

theorem added_cons (sc : SlowScanner) (j : Jump) (js : List Jump) (i : Nat) :
    added sc (j :: js) i = added sc [j] i ++ added sc js i := by
  unfold added
  rw [← List.filterMap_append]
  rfl

theorem added_congr (sc sc' : SlowScanner) (hm : sc'.m = sc.m)
    (hl : sc'.m_letters = sc.m_letters) (js : List Jump) (i : Nat) :
    added sc' js i = added sc js i := by
  unfold added
  rw [hm, hl]

theorem SetJump_ok (sc : SlowScanner) (j : Jump) (h : JumpOk sc j) :
    ∃ sc', SetJump sc j.oldState j.c j.newState j.payload = .ok sc' ∧
      sc'.m = sc.m ∧ sc'.m_letters = sc.m_letters ∧ sc'.m_finals = sc.m_finals ∧
      sc'.m_jumps = sc.m_jumps ∧ sc'.m_jumpPos = sc.m_jumpPos ∧
      sc'.m_vec.length = sc.m_vec.length ∧
      ∀ i, sc'.m_vec[i]? = (sc.m_vec[i]?).map (fun v => v ++ added sc [j] i) := by
  obtain ⟨hne, ho, hn, l, hl, hidx⟩ := h
  refine ⟨⟨sc.m, sc.m_finals, sc.m_jumps, sc.m_jumpPos, sc.m_letters, sc.m_pool,
    sc.m_vec.set (j.oldState * sc.m.lettersCount + l)
      (sc.m_vec[j.oldState * sc.m.lettersCount + l] ++ [j.newState])⟩,
    ?_, rfl, rfl, rfl, rfl, rfl, by simp, ?_⟩
  · simp only [SetJump, isEmpty_eq_false_of_ne _ hne, ho, hn, hl, List.getElem?_eq_getElem hidx,
      not_true_eq_false, if_false, Bool.false_eq_true]
  · intro i
    simp only [List.getElem?_set, added, List.filterMap_cons, List.filterMap_nil, hl]
    by_cases hi : j.oldState * sc.m.lettersCount + l = i
    · subst hi
      simp [hidx]
    · simp only [hi, if_false]
      cases sc.m_vec[i]? <;> simp

theorem SetJump_ok_inv (sc sc' : SlowScanner) (j : Jump)
    (h : SetJump sc j.oldState j.c j.newState j.payload = .ok sc') : JumpOk sc j := by
  unfold SetJump at h
  by_cases hne : sc.m_vec.isEmpty = true
  · simp [hne] at h
  by_cases ho : j.oldState < sc.m.statesCount
  swap
  · simp [hne, ho] at h
  by_cases hn : j.newState < sc.m.statesCount
  swap
  · simp [hne, ho, hn] at h
  cases hl : sc.m_letters[j.c]? with
  | none => simp [hne, ho, hn, hl] at h
  | some l =>
    cases hv : sc.m_vec[j.oldState * sc.m.lettersCount + l]? with
    | none => simp [hne, ho, hn, hl, hv] at h
    | some v =>
      refine ⟨?_, ho, hn, l, hl, ?_⟩
      · intro he
        rw [he] at hne
        exact hne rfl
      · exact (List.getElem?_eq_some.1 hv).1

theorem JumpOk_congr (sc sc' : SlowScanner) (hm : sc'.m = sc.m)
    (hl : sc'.m_letters = sc.m_letters) (hlen : sc'.m_vec.length = sc.m_vec.length) (j : Jump) :
    JumpOk sc' j ↔ JumpOk sc j := by
  have hne : sc'.m_vec ≠ [] ↔ sc.m_vec ≠ [] := by
    rw [← List.length_pos, ← List.length_pos, hlen]
  unfold JumpOk
  rw [hm, hl, hlen, hne]

theorem applyJumps_ok (sc : SlowScanner) (js : List Jump) (h : ∀ j ∈ js, JumpOk sc j) :
    ∃ sc', applyJumps sc js = .ok sc' ∧
      sc'.m = sc.m ∧ sc'.m_letters = sc.m_letters ∧ sc'.m_finals = sc.m_finals ∧
      sc'.m_jumps = sc.m_jumps ∧ sc'.m_jumpPos = sc.m_jumpPos ∧
      sc'.m_vec.length = sc.m_vec.length ∧
      ∀ i, sc'.m_vec[i]? = (sc.m_vec[i]?).map (fun v => v ++ added sc js i) := by
  induction js generalizing sc with
  | nil =>
    refine ⟨sc, rfl, rfl, rfl, rfl, rfl, rfl, rfl, fun i => ?_⟩
    cases sc.m_vec[i]? <;> simp [added]
  | cons j js ih =>
    obtain ⟨sc₁, h₁, hm₁, hl₁, hf₁, hj₁, hp₁, hlen₁, hrows₁⟩ :=
      SetJump_ok sc j (h j (List.mem_cons_self _ _))
    obtain ⟨sc', h', hm', hl', hf', hj', hp', hlen', hrows'⟩ := ih sc₁ (fun j' hj' =>
      (JumpOk_congr sc sc₁ hm₁ hl₁ hlen₁ j').2 (h j' (List.mem_cons_of_mem _ hj')))
    refine ⟨sc', ?_, hm'.trans hm₁, hl'.trans hl₁, hf'.trans hf₁, hj'.trans hj₁, hp'.trans hp₁,
      hlen'.trans hlen₁, fun i => ?_⟩
    · simp only [applyJumps, h₁, h']
    · rw [hrows' i, hrows₁ i, added_cons sc j js i, added_congr sc sc₁ hm₁ hl₁]
      cases sc.m_vec[i]? <;> simp

theorem applyJumps_ok_inv (sc sc' : SlowScanner) (js : List Jump)
    (h : applyJumps sc js = .ok sc') : ∀ j ∈ js, JumpOk sc j := by
  induction js generalizing sc with
  | nil => simp
  | cons j js ih =>
    simp only [applyJumps] at h
    cases h₁ : SetJump sc j.oldState j.c j.newState j.payload with
    | error e => simp [h₁] at h
    | ok sc₁ =>
      simp only [h₁] at h
      have hj := SetJump_ok_inv sc sc₁ j h₁
      obtain ⟨sc₁', h₁', hm₁, hl₁, -, -, -, hlen₁, -⟩ := SetJump_ok sc j hj
      rw [h₁] at h₁'
      cases h₁'
      intro j' hj'
      rcases List.mem_cons.1 hj' with rfl | hj'
      · exact hj
      · exact (JumpOk_congr sc sc₁ hm₁ hl₁ hlen₁ j').1 (ih sc₁ h j' hj')

theorem rowsAgree_of_rows (sc₁ sc₂ : SlowScanner) (hm : sc₁.m = sc₂.m)
    (hl : sc₁.m_letters = sc₂.m_letters) (hf : sc₁.m_finals = sc₂.m_finals)
    (hj : sc₁.m_jumps = sc₂.m_jumps) (hp : sc₁.m_jumpPos = sc₂.m_jumpPos)
    (hlen : sc₁.m_vec.length = sc₂.m_vec.length)
    (hrows : ∀ i : Nat, (∃ row, sc₁.m_vec[i]? = some row) ↔ (∃ row, sc₂.m_vec[i]? = some row))
    (hmem : ∀ (i d : Nat), (∃ row, sc₁.m_vec[i]? = some row ∧ d ∈ row) ↔
      (∃ row, sc₂.m_vec[i]? = some row ∧ d ∈ row)) :
    RowsAgree sc₁ sc₂ := by
  have hemp : sc₁.m_vec.isEmpty = sc₂.m_vec.isEmpty := by
    cases h1 : sc₁.m_vec with
    | nil =>
      cases h2 : sc₂.m_vec with
      | nil => rfl
      | cons a b => simp [h1, h2] at hlen
    | cons a b =>
      cases h2 : sc₂.m_vec with
      | nil => simp [h1, h2] at hlen
      | cons a' b' => rfl
  have hdest : ∀ s l, sc₂.m_vec.isEmpty = true → destRange sc₁ s l = destRange sc₂ s l := by
    intro s l he
    simp only [destRange, hemp, he, if_true, hp, hj, hm]
  refine ⟨hm, hl, hf, fun s l => ?_, fun s l d => ?_⟩
  · by_cases he : sc₂.m_vec.isEmpty = true
    · rw [hdest s l he]
    · simp only [destRange, hemp, he, Bool.false_eq_true, if_false, hm]
      exact hrows _
  · by_cases he : sc₂.m_vec.isEmpty = true
    · rw [hdest s l he]
    · simp only [destRange, hemp, he, Bool.false_eq_true, if_false, hm]
      exact hmem _ d

/-- C10: two sequences of `SetJump` calls that are permutations of each other,
applied to the same scanner (whose finals table has `statesCount` entries, as
after the set-up), either both fail or give two scanners that, for every input
string, reach configurations with the same set of states and agree on `Final`. -/
theorem applyJumps_perm (sc sc₁ : SlowScanner) (js₁ js₂ : List Jump)
    (hfin : sc.m_finals.length = sc.m.statesCount) (hperm : js₁.Perm js₂)
    (h₁ : applyJumps sc js₁ = .ok sc₁) :
    ∃ sc₂, applyJumps sc js₂ = .ok sc₂ ∧
      ∀ (input : List Nat) (cfg0 cfg0' : State),
        SameOutcome sc₁ sc₂ (scan sc₁ (Initialize sc₁ cfg0) input)
          (scan sc₂ (Initialize sc₂ cfg0') input) := by
  have hok₁ := applyJumps_ok_inv sc sc₁ js₁ h₁
  obtain ⟨sc₁', h₁', hm₁, hl₁, hf₁, hj₁, hp₁, hlen₁, hrows₁⟩ := applyJumps_ok sc js₁ hok₁
  rw [h₁] at h₁'
  cases h₁'
  obtain ⟨sc₂, h₂, hm₂, hl₂, hf₂, hj₂, hp₂, hlen₂, hrows₂⟩ := applyJumps_ok sc js₂
    (fun j hj => hok₁ j (hperm.mem_iff.2 hj))
  refine ⟨sc₂, h₂, fun input cfg0 cfg0' => ?_⟩
  have hadd : ∀ i d, d ∈ added sc js₁ i ↔ d ∈ added sc js₂ i := fun i d =>
    (hperm.filterMap _).mem_iff
  have hagree : RowsAgree sc₁ sc₂ := by
    refine rowsAgree_of_rows sc₁ sc₂ (hm₁.trans hm₂.symm) (hl₁.trans hl₂.symm)
      (hf₁.trans hf₂.symm) (hj₁.trans hj₂.symm) (hp₁.trans hp₂.symm) (hlen₁.trans hlen₂.symm)
      (fun i => ?_) (fun i d => ?_)
    · rw [hrows₁ i, hrows₂ i]
      cases sc.m_vec[i]? <;> simp
    · rw [hrows₁ i, hrows₂ i]
      cases sc.m_vec[i]? <;> simp [hadd i d]
  have hinit : (Initialize sc₁ cfg0).states = (Initialize sc₂ cfg0').states := by
    simp only [Initialize, hm₁, hm₂]
  exact scan_agree sc₁ sc₂ hagree (by rw [hf₁, hm₁]; exact hfin) input _ _
    (fun q => by rw [hinit]) (Or.inl hinit)

theorem applyJumps_perm_witness :
    freshScanner.m_finals.length = freshScanner.m.statesCount ∧
    [Jump.mk 0 2 0 7, Jump.mk 0 3 1 8, Jump.mk 1 0 1 9].Perm
      [Jump.mk 1 0 1 9, Jump.mk 0 3 1 8, Jump.mk 0 2 0 7] ∧
    applyJumps freshScanner [Jump.mk 0 2 0 7, Jump.mk 0 3 1 8, Jump.mk 1 0 1 9] =
      .ok { freshScanner with m_vec := [[0, 1], [1]] } ∧
    ∃ sc₂, applyJumps freshScanner [Jump.mk 1 0 1 9, Jump.mk 0 3 1 8, Jump.mk 0 2 0 7] = .ok sc₂ ∧
      ∀ (input : List Nat) (cfg0 cfg0' : State),
        SameOutcome { freshScanner with m_vec := [[0, 1], [1]] } sc₂
          (scan { freshScanner with m_vec := [[0, 1], [1]] }
            (Initialize { freshScanner with m_vec := [[0, 1], [1]] } cfg0) input)
          (scan sc₂ (Initialize sc₂ cfg0') input) :=
  have hperm : [Jump.mk 0 2 0 7, Jump.mk 0 3 1 8, Jump.mk 1 0 1 9].Perm
      [Jump.mk 1 0 1 9, Jump.mk 0 3 1 8, Jump.mk 0 2 0 7] := by decide
  ⟨by decide, hperm, by rfl,
    applyJumps_perm freshScanner { freshScanner with m_vec := [[0, 1], [1]] } _ _ (by decide)
      hperm (by rfl)⟩

/-! ## The bitset of the configurations of a scan -/

theorem Next_flags_size (sc : SlowScanner) (cur out o : State) (c a : Nat)
    (h : Next sc cur out c = some (o, a)) : o.flags.Size = out.flags.Size := by
  obtain ⟨l, ds, -, -, -, ho, -⟩ := Next_some sc cur out o c a h
  subst ho
  show (markAll out.flags.Clear ds).Size = out.flags.Size
  rw [markAll_size]
  simp [BitSet.Clear, BitSet.Size]

theorem marks_push (st : State) (d : Nat) (hm : Marks st)
    (hget : st.flags.bits[d]? = some false) :
    Marks ⟨st.states ++ [d], ⟨st.flags.bits.set d true⟩⟩ := by
  intro i
  simp only [List.mem_append, List.mem_singleton]
  by_cases hi : d = i
  · subst hi
    simp [List.getElem?_set_self', hget]
  · rw [List.getElem?_set_ne hi, hm i]
    constructor
    · exact Or.inl
    · rintro (h | h)
      · exact h
      · exact absurd h.symm hi

theorem pushNew_marks (st st' : State) (xs : List Nat) (hm : Marks st)
    (h : pushNew st xs = some st') : Marks st' := by
  induction xs generalizing st with
  | nil =>
    simp only [pushNew, Option.some.injEq] at h
    exact h ▸ hm
  | cons d ds ih =>
    simp only [pushNew, BitSet.Test] at h
    cases hb : st.flags.bits[d]? with
    | none => simp [hb] at h
    | some b =>
      cases b with
      | true =>
        simp only [hb] at h
        exact ih st hm h
      | false =>
        have hd : d < st.flags.bits.length := (List.getElem?_eq_some.1 hb).1
        simp only [hb, BitSet.Set, hd, if_true] at h
        exact ih _ (marks_push st d hm hb) h

theorem Next_marks (sc : SlowScanner) (cur out o : State) (c a : Nat)
    (h : Next sc cur out c = some (o, a)) : Marks o := by
  unfold Next at h
  cases hl : sc.m_letters[c]? with
  | none => simp [hl] at h
  | some l =>
    simp only [hl, nextLoop_eq] at h
    cases hd : destsOf sc l cur.states with
    | none => simp [hd] at h
    | some ds =>
      simp only [hd, Option.some_bind] at h
      cases hp : pushNew ⟨[], out.flags.Clear⟩ ds with
      | none => simp [hp] at h
      | some o' =>
        simp only [hp, Option.some.injEq, Prod.mk.injEq] at h
        rw [← h.1]
        exact pushNew_marks _ o' ds (marks_clear out.flags) hp

theorem scan_cons_some (sc : SlowScanner) (s cfg : State) (c : Nat) (cs : List Nat)
    (h : scan sc s (c :: cs) = some cfg) :
    ∃ s' a, Next sc s (State.ofSize sc.m.statesCount) c = some (s', a) ∧
      scan sc s' cs = some cfg := by
  simp only [scan] at h
  cases hn : NextInPlace sc s c with
  | none => simp [hn] at h
  | some r =>
    obtain ⟨s', a⟩ := r
    simp only [hn] at h
    rw [NextInPlace_eq] at hn
    exact ⟨s', a, hn, h⟩

theorem nodup_lt_length (xs : List Nat) (n : Nat) (hnd : xs.Nodup) (h : ∀ x ∈ xs, x < n) :
    xs.length ≤ n := by
  have := (List.Nodup.subperm hnd (fun x hx => List.mem_range.2 (h x hx))).length_le
  rwa [List.length_range] at this

theorem Next_stepped (sc : SlowScanner) (cur o : State) (c a : Nat)
    (h : Next sc cur (State.ofSize sc.m.statesCount) c = some (o, a)) : Stepped sc o := by
  refine ⟨?_, Next_marks sc cur _ o c a h, ?_, ?_⟩
  · rw [Next_flags_size sc cur _ o c a h, ofSize_size]
  · obtain ⟨l, ds, -, -, -, ho, -⟩ := Next_some sc cur _ o c a h
    subst ho
    exact firstOcc_nodup ds
  · have := Next_states_lt sc cur _ o c a h
    rwa [ofSize_size] at this

theorem scan_stepped (sc : SlowScanner) (input : List Nat) (s cfg : State)
    (hs : Stepped sc s) (h : scan sc s input = some cfg) : Stepped sc cfg := by
  induction input generalizing s with
  | nil =>
    simp only [scan, Option.some.injEq] at h
    exact h ▸ hs
  | cons c cs ih =>
    obtain ⟨s', a, hn, hrest⟩ := scan_cons_some sc s cfg c cs h
    exact ih s' (Next_stepped sc s s' c a hn) hrest

theorem scan_cons_stepped (sc : SlowScanner) (s cfg : State) (c : Nat) (cs : List Nat)
    (h : scan sc s (c :: cs) = some cfg) : Stepped sc cfg := by
  obtain ⟨s', a, hn, hrest⟩ := scan_cons_some sc s cfg c cs h
  exact scan_stepped sc cs s' cfg (Next_stepped sc s s' c a hn) hrest

theorem Initialize_lt (sc : SlowScanner) (h : Invariants sc) (cfg0 : State) :
    ∀ p ∈ (Initialize sc cfg0).states, p < sc.m.statesCount := by
  intro p hp
  simp only [Initialize, List.mem_singleton] at hp
  subst hp
  exact h.start_lt

/-- C19, as the code has it: in every `out` configuration written by the
two-configuration `Next`, and in every configuration obtained from `Initialize`
followed by one or more in-place `Next` steps, bit `i` of the bitset is set iff
state `i` occurs in the state list; for a scanner whose tables satisfy the
invariants, and symbols of its letter table, these scans do return. -/
theorem stepped_bitset_agrees (sc : SlowScanner) :
    (∀ current out c out' a, Next sc current out c = some (out', a) →
      ∀ i, out'.flags.Test i = some true ↔ i ∈ out'.states) ∧
    (∀ cfg0 c cs cfg, scan sc (Initialize sc cfg0) (c :: cs) = some cfg →
      ∀ i, cfg.flags.Test i = some true ↔ i ∈ cfg.states) ∧
    (Invariants sc → ∀ cfg0 input, (∀ c ∈ input, c < sc.m_letters.length) →
      ∃ cfg, scan sc (Initialize sc cfg0) input = some cfg) := by
  refine ⟨fun current out c out' a h => Next_marks sc current out out' c a h,
    fun cfg0 c cs cfg h => (scan_cons_stepped sc _ cfg c cs h).2.1, fun hinv cfg0 input hin => ?_⟩
  obtain ⟨cfg, hcfg, -⟩ := scan_total sc hinv input hin _ (Initialize_lt sc hinv cfg0)
  exact ⟨cfg, hcfg⟩

theorem freshScanner_invariants : Invariants freshScanner where
  start_lt := by decide
  letters_lt := by decide
  vec_lt := by decide
  jumps_lt := by decide
  finals_len := by decide
  vec_len := by decide
  pos_len := by decide
  pos_mono := by decide
  pos_le := by decide

theorem stepped_bitset_agrees_witness :
    Next dupScanner ⟨[0, 2, 0], BitSet.ofSize 0⟩ ⟨[7, 7], ⟨[true, true, true]⟩⟩ 1 =
      some (⟨[1, 0, 2], ⟨[true, true, true]⟩⟩, 0) ∧
    (∀ i, (BitSet.mk [true, true, true]).Test i = some true ↔ i ∈ [1, 0, 2]) ∧
    scan freshScanner (Initialize freshScanner State.empty) [0, 1] = some ⟨[], ⟨[false, false]⟩⟩ ∧
    (∀ i, (BitSet.mk [false, false]).Test i = some true ↔ i ∈ ([] : List Nat)) ∧
    ∃ cfg, scan freshScanner (Initialize freshScanner State.empty) [0, 1] = some cfg :=
  ⟨by decide,
    (stepped_bitset_agrees dupScanner).1 ⟨[0, 2, 0], BitSet.ofSize 0⟩
      ⟨[7, 7], ⟨[true, true, true]⟩⟩ 1 ⟨[1, 0, 2], ⟨[true, true, true]⟩⟩ 0 (by decide),
    by decide,
    (stepped_bitset_agrees freshScanner).2.1 State.empty 0 [1] ⟨[], ⟨[false, false]⟩⟩ (by decide),
    (stepped_bitset_agrees freshScanner).2.2 freshScanner_invariants State.empty [0, 1]
      (by decide)⟩

/-- C19 as stated fails at zero steps: `Initialize` puts the initial state in the
list and leaves every bit of the bitset clear, also for a scanner whose tables
satisfy the invariants. -/
theorem Initialize_bitset_clear :
    Invariants freshScanner ∧
    ¬ ∀ i, (Initialize freshScanner State.empty).flags.Test i = some true ↔
      i ∈ (Initialize freshScanner State.empty).states := by
  refine ⟨freshScanner_invariants, fun h => ?_⟩
  have := (h 0).2 (by decide)
  revert this
  decide

/-- C20: with `statesCount >= 1`, every configuration obtained from `Initialize`
followed by in-place `Next` steps has a state list of at most `statesCount`
entries; for a scanner whose tables satisfy the invariants, and symbols of its
letter table, these scans do return. -/
theorem scan_states_length (sc : SlowScanner) (input : List Nat) (cfg0 : State)
    (h1 : 1 ≤ sc.m.statesCount) :
    (∀ cfg, scan sc (Initialize sc cfg0) input = some cfg →
      cfg.states.length ≤ sc.m.statesCount) ∧
    (Invariants sc → (∀ c ∈ input, c < sc.m_letters.length) →
      ∃ cfg, scan sc (Initialize sc cfg0) input = some cfg) := by
  constructor
  · intro cfg h
    cases input with
    | nil =>
      simp only [scan, Option.some.injEq] at h
      rw [← h]
      exact h1
    | cons c cs =>
      obtain ⟨-, -, hnd, hlt⟩ := scan_cons_stepped sc _ cfg c cs h
      exact nodup_lt_length _ _ hnd hlt
  · intro hinv hin
    obtain ⟨cfg, hcfg, -⟩ := scan_total sc hinv input hin _ (Initialize_lt sc hinv cfg0)
    exact ⟨cfg, hcfg⟩

theorem scan_states_length_witness :
    1 ≤ dupScanner.m.statesCount ∧
    scan dupScanner (Initialize dupScanner State.empty) [0, 1] =
      some ⟨[1, 0], ⟨[true, true, false]⟩⟩ ∧
    ([1, 0] : List Nat).length ≤ dupScanner.m.statesCount :=
  ⟨by decide, by decide,
    (scan_states_length dupScanner [0, 1] State.empty (by decide)).1
      ⟨[1, 0], ⟨[true, true, false]⟩⟩ (by decide)⟩

/-! ## The step stays inside the tables -/

theorem Next_of_rows (sc : SlowScanner) (cur out : State) (c : Nat)
    (hc : c < sc.m_letters.length)
    (hrows : ∀ s ∈ cur.states, ∃ row, destRange sc s sc.m_letters[c] = some row ∧
      ∀ d ∈ row, d < out.flags.Size) :
    ∃ out', Next sc cur out c = some (out', 0) := by
  rw [Next_eq, List.getElem?_eq_getElem hc]
  obtain ⟨ds, hds⟩ := (destsOf_some_iff sc _ cur.states).2
    (fun s hs => (hrows s hs).imp fun _ hr => hr.1)
  have hlt : ∀ d ∈ ds, d < out.flags.Size := by
    intro d hd
    obtain ⟨s, hs, row, hrow, hdrow⟩ := (destsOf_mem sc _ _ ds hds d).1 hd
    obtain ⟨row', hrow', hlt⟩ := hrows s hs
    rw [hrow] at hrow'
    cases hrow'
    exact hlt d hdrow
  simp only [hds]
  rw [if_pos hlt]
  exact ⟨_, rfl⟩

theorem destRange_in_bounds (sc : SlowScanner) (s l : Nat)
    (hsC : 1 ≤ sc.m.statesCount) (hlC : 1 ≤ sc.m.lettersCount)
    (htable : sc.m_vec.length = sc.m.statesCount * sc.m.lettersCount ∨
      (sc.m_vec = [] ∧ sc.m_jumpPos.Pairwise (fun a b => a ≤ b) ∧
        ∃ e, sc.m_jumpPos[sc.m.statesCount * sc.m.lettersCount]? = some e ∧
          e ≤ sc.m_jumps.length))
    (hvec : ∀ row ∈ sc.m_vec, ∀ d ∈ row, d < sc.m.statesCount)
    (hjumps : ∀ d ∈ sc.m_jumps, d < sc.m.statesCount)
    (hs : s < sc.m.statesCount) (hl : l < sc.m.lettersCount) :
    ∃ row, destRange sc s l = some row ∧ ∀ d ∈ row, d < sc.m.statesCount := by
  have hidx := row_index_lt hs hl
  have hpos : 0 < sc.m.statesCount * sc.m.lettersCount := Nat.mul_pos hsC hlC
  rcases htable with hlen | ⟨hv, hmono, e, he, hele⟩
  · have h1 : s * sc.m.lettersCount + l < sc.m_vec.length := by omega
    have hne : sc.m_vec ≠ [] := by
      intro h0
      rw [h0] at hlen
      simp at hlen
      omega
    refine ⟨sc.m_vec[s * sc.m.lettersCount + l], ?_, ?_⟩
    · unfold destRange
      rw [isEmpty_eq_false_of_ne _ hne, List.getElem?_eq_getElem h1]
      simp
    · exact hvec _ (List.getElem_mem h1)
  · obtain ⟨hlast, hlast'⟩ := List.getElem?_eq_some.1 he
    have h1 : s * sc.m.lettersCount + l < sc.m_jumpPos.length := by omega
    have h2 : s * sc.m.lettersCount + l + 1 < sc.m_jumpPos.length := by omega
    have hm := List.pairwise_iff_getElem.1 hmono _ _ h1 h2 (Nat.lt_succ_self _)
    have hle : sc.m_jumpPos[s * sc.m.lettersCount + l + 1] ≤ sc.m_jumps.length := by
      rcases Nat.lt_or_ge (s * sc.m.lettersCount + l + 1)
        (sc.m.statesCount * sc.m.lettersCount) with hlt | hge
      · have := List.pairwise_iff_getElem.1 hmono _ _ h2 hlast hlt
        rw [hlast'] at this
        omega
      · have heq : s * sc.m.lettersCount + l + 1 = sc.m.statesCount * sc.m.lettersCount := by
          omega
        have : sc.m_jumpPos[s * sc.m.lettersCount + l + 1] = e := by
          rw [← hlast']
          congr 1
        omega
    refine ⟨(sc.m_jumps.drop sc.m_jumpPos[s * sc.m.lettersCount + l]).take
      (sc.m_jumpPos[s * sc.m.lettersCount + l + 1] - sc.m_jumpPos[s * sc.m.lettersCount + l]),
      ?_, ?_⟩
    · unfold destRange
      rw [hv, List.getElem?_eq_getElem h1, List.getElem?_eq_getElem h2]
      simp only [List.isEmpty_nil, if_true]
      rw [if_pos ⟨hm, hle⟩]
    · intro d hd
      exact hjumps d (List.mem_of_mem_drop (List.mem_of_mem_take hd))

/-- C15: take a scanner with `statesCount >= 1` and `lettersCount >= 1`, a letter
table of `MaxChar` entries all below `lettersCount`, a dense table of exactly
`statesCount * lettersCount` rows or else offsets that are non-decreasing with the
last one (index `statesCount * lettersCount`) at most the length of the targets,
every destination below `statesCount`, and a finals table of `statesCount`
entries.  For every configuration of states below `statesCount`, every `out`
whose bitset has `statesCount` bits and every symbol `c < MaxChar`, `Next`
completes (no lookup leaves its table) with action 0, `Final` completes on the
current and on the new configuration, and every state of the new configuration is
below `statesCount`. -/
theorem Next_in_bounds (sc : SlowScanner) (MaxChar : Nat) (current out : State) (c : Nat)
    (hsC : 1 ≤ sc.m.statesCount) (hlC : 1 ≤ sc.m.lettersCount)
    (hlen : sc.m_letters.length = MaxChar)
    (hletters : ∀ l ∈ sc.m_letters, l < sc.m.lettersCount)
    (htable : sc.m_vec.length = sc.m.statesCount * sc.m.lettersCount ∨
      (sc.m_vec = [] ∧ sc.m_jumpPos.Pairwise (fun a b => a ≤ b) ∧
        ∃ e, sc.m_jumpPos[sc.m.statesCount * sc.m.lettersCount]? = some e ∧
          e ≤ sc.m_jumps.length))
    (hvec : ∀ row ∈ sc.m_vec, ∀ d ∈ row, d < sc.m.statesCount)
    (hjumps : ∀ d ∈ sc.m_jumps, d < sc.m.statesCount)
    (hfinals : sc.m_finals.length = sc.m.statesCount)
    (hcur : ∀ s ∈ current.states, s < sc.m.statesCount)
    (hout : out.flags.Size = sc.m.statesCount) (hc : c < MaxChar) :
    ∃ out', Next sc current out c = some (out', 0) ∧
      (∀ s ∈ out'.states, s < sc.m.statesCount) ∧
      (∃ b, Final sc current = some b) ∧ ∃ b, Final sc out' = some b := by
  have hc' : c < sc.m_letters.length := hlen ▸ hc
  have hl : sc.m_letters[c] < sc.m.lettersCount := hletters _ (List.getElem_mem hc')
  obtain ⟨out', hout'⟩ := Next_of_rows sc current out c hc' (fun s hs => by
    rw [hout]
    exact destRange_in_bounds sc s _ hsC hlC htable hvec hjumps (hcur s hs) hl)
  have hlt : ∀ s ∈ out'.states, s < sc.m.statesCount := by
    have := Next_states_lt sc current out out' c 0 hout'
    rwa [hout] at this
  exact ⟨out', hout', hlt,
    finalLoop_total sc current.states (fun s hs => hfinals ▸ hcur s hs),
    finalLoop_total sc out'.states (fun s hs => hfinals ▸ hlt s hs)⟩

set_option maxRecDepth 4000 in
theorem abLetters_lt : ∀ l ∈ abLetters, l < 3 := by
  intro l hl
  simp only [abLetters, List.mem_map] at hl
  obtain ⟨c, -, rfl⟩ := hl
  split
  · omega
  · split <;> omega

theorem Next_in_bounds_witness :
    (∃ out', Next abScanner ⟨[0, 1, 1], BitSet.ofSize 0⟩ ⟨[2], BitSet.ofSize 3⟩ 98 =
        some (out', 0) ∧
      (∀ s ∈ out'.states, s < 3) ∧
      (∃ b, Final abScanner ⟨[0, 1, 1], BitSet.ofSize 0⟩ = some b) ∧
      ∃ b, Final abScanner out' = some b) ∧
    ∃ out', Next abScannerFlat ⟨[0, 1, 1], BitSet.ofSize 0⟩ ⟨[2], BitSet.ofSize 3⟩ 98 =
        some (out', 0) ∧
      (∀ s ∈ out'.states, s < 3) ∧
      (∃ b, Final abScannerFlat ⟨[0, 1, 1], BitSet.ofSize 0⟩ = some b) ∧
      ∃ b, Final abScannerFlat out' = some b :=
  ⟨Next_in_bounds abScanner 264 ⟨[0, 1, 1], BitSet.ofSize 0⟩ ⟨[2], BitSet.ofSize 3⟩ 98
      (by decide) (by decide) abLetters_length abLetters_lt (Or.inl (by decide))
      (by decide) (by decide) (by decide) (by decide) (by decide) (by decide),
    Next_in_bounds abScannerFlat 264 ⟨[0, 1, 1], BitSet.ofSize 0⟩ ⟨[2], BitSet.ofSize 3⟩ 98
      (by decide) (by decide) abLetters_length abLetters_lt
      (Or.inr ⟨rfl, by decide, 9, by decide, by decide⟩)
      (by decide) (by decide) (by decide) (by decide) (by decide) (by decide)⟩

/-! ## The construction hook `SetJump` -/

theorem pushNew_test_mono (st st' : State) (xs : List Nat) (h : pushNew st xs = some st')
    (d : Nat) (hd : st.flags.Test d = some true) : st'.flags.Test d = some true := by
  induction xs generalizing st with
  | nil =>
    simp only [pushNew, Option.some.injEq] at h
    exact h ▸ hd
  | cons x xs ih =>
    simp only [pushNew, BitSet.Test] at h
    cases hb : st.flags.bits[x]? with
    | none => simp [hb] at h
    | some b =>
      cases b with
      | true =>
        simp only [hb] at h
        exact ih st h hd
      | false =>
        have hx : x < st.flags.bits.length := (List.getElem?_eq_some.1 hb).1
        simp only [hb, BitSet.Set, hx, if_true] at h
        refine ih _ h ?_
        simp only [BitSet.Test] at hd ⊢
        by_cases hxd : x = d
        · subst hxd
          rw [hb] at hd
          cases hd
        · rw [List.getElem?_set_ne hxd]
          exact hd

theorem pushNew_test (st st' : State) (xs : List Nat) (h : pushNew st xs = some st')
    (d : Nat) (hd : d ∈ xs) : st'.flags.Test d = some true := by
  induction xs generalizing st with
  | nil => cases hd
  | cons x xs ih =>
    simp only [pushNew, BitSet.Test] at h
    cases hb : st.flags.bits[x]? with
    | none => simp [hb] at h
    | some b =>
      cases b with
      | true =>
        simp only [hb] at h
        rcases List.mem_cons.1 hd with rfl | hd'
        · exact pushNew_test_mono st st' xs h d hb
        · exact ih st h hd'
      | false =>
        have hx : x < st.flags.bits.length := (List.getElem?_eq_some.1 hb).1
        simp only [hb, BitSet.Set, hx, if_true] at h
        rcases List.mem_cons.1 hd with rfl | hd'
        · refine pushNew_test_mono _ st' xs h d ?_
          simp [BitSet.Test, List.getElem?_set_self', hb]
        · exact ih _ h hd'

theorem pushNew_again (st : State) (xs : List Nat) (n : Nat) (hn : n ∈ xs) :
    pushNew st (xs ++ [n]) = pushNew st xs := by
  rw [pushNew_append]
  cases h : pushNew st xs with
  | none => rfl
  | some st' =>
    have ht := pushNew_test st st' xs h n hn
    simp only [Option.some_bind, pushNew, ht]

theorem nextLoop_cons (sc : SlowScanner) (l s : Nat) (rest : List Nat) (st : State) :
    nextLoop sc l (s :: rest) st =
      ((destRange sc s l).bind (pushNew st)).bind (nextLoop sc l rest) := by
  simp only [nextLoop]
  cases destRange sc s l with
  | none => rfl
  | some row =>
    simp only [Option.some_bind]
    cases pushNew st row with
    | none => rfl
    | some st' => rfl

theorem nextLoop_congr_rows (sc₁ sc₂ : SlowScanner) (l : Nat) (ss : List Nat) (st : State)
    (h : ∀ s st, (destRange sc₂ s l).bind (pushNew st) = (destRange sc₁ s l).bind (pushNew st)) :
    nextLoop sc₂ l ss st = nextLoop sc₁ l ss st := by
  induction ss generalizing st with
  | nil => rfl
  | cons s rest ih =>
    rw [nextLoop_cons, nextLoop_cons, h s st]
    cases (destRange sc₁ s l).bind (pushNew st) with
    | none => rfl
    | some st' => exact ih st'

/-- C11: when the triple `(oldState, c, newState)` is among the `SetJump` calls
already made on a dense scanner, one more `SetJump` call with that triple (and any
payload) does not fail, and the `out` configuration, list and bitset, that `Next`
computes is the same before and after it, for every current configuration, every
`out` and every symbol. -/
theorem SetJump_duplicate_Next (sc sc₁ : SlowScanner) (js : List Jump) (j : Jump)
    (payload : Nat) (h₁ : applyJumps sc js = .ok sc₁) (hj : j ∈ js) :
    ∃ sc₂, SetJump sc₁ j.oldState j.c j.newState payload = .ok sc₂ ∧
      ∀ current out c, Next sc₂ current out c = Next sc₁ current out c := by
  have hok := applyJumps_ok_inv sc sc₁ js h₁
  obtain ⟨sc₁', h₁', hm₁, hl₁, -, -, -, hlen₁, hrows₁⟩ := applyJumps_ok sc js hok
  rw [h₁] at h₁'
  cases h₁'
  have hjok : JumpOk sc₁ ⟨j.oldState, j.c, j.newState, payload⟩ :=
    (JumpOk_congr sc sc₁ hm₁ hl₁ hlen₁ ⟨j.oldState, j.c, j.newState, payload⟩).2 (hok j hj)
  obtain ⟨sc₂, h₂, hm₂, hl₂, -, -, -, hlen₂, hrows₂⟩ :=
    SetJump_ok sc₁ ⟨j.oldState, j.c, j.newState, payload⟩ hjok
  refine ⟨sc₂, h₂, fun current out c => ?_⟩
  obtain ⟨hne, -, -, lj, hlj, hidx⟩ := hjok
  have hne₂ : sc₂.m_vec ≠ [] := by
    rw [← List.length_pos, hlen₂, List.length_pos]
    exact hne
  have hrow : ∀ l s st,
      (destRange sc₂ s l).bind (pushNew st) = (destRange sc₁ s l).bind (pushNew st) := by
    intro l s st
    simp only [destRange, isEmpty_eq_false_of_ne _ hne, isEmpty_eq_false_of_ne _ hne₂,
      Bool.false_eq_true, if_false, hm₂, hrows₂]
    cases hrow₁ : sc₁.m_vec[s * sc₁.m.lettersCount + l]? with
    | none => rfl
    | some row =>
      simp only [Option.map_some', Option.some_bind, added, List.filterMap_cons,
        List.filterMap_nil, hlj]
      by_cases hi : j.oldState * sc₁.m.lettersCount + lj = s * sc₁.m.lettersCount + l
      · simp only [hi, if_true]
        apply pushNew_again
        have hr := hrows₁ (s * sc₁.m.lettersCount + l)
        rw [hrow₁] at hr
        cases hr₀ : sc.m_vec[s * sc₁.m.lettersCount + l]? with
        | none => simp [hr₀] at hr
        | some row₀ =>
          simp only [hr₀, Option.map_some', Option.some.injEq] at hr
          rw [hr]
          apply List.mem_append_right
          simp only [added, List.mem_filterMap]
          refine ⟨j, hj, ?_⟩
          have hlj' : sc₁.m_letters[j.c]? = some lj := hlj
          rw [← hl₁, hlj', ← hm₁]
          simp only [hi, if_true]
      · simp only [hi, if_false, List.append_nil]
  unfold Next
  rw [hl₂]
  cases sc₁.m_letters[c]? with
  | none => rfl
  | some l =>
    simp only [nextLoop_congr_rows sc₁ sc₂ l _ _ (hrow l)]

theorem SetJump_duplicate_Next_witness :
    applyJumps freshScanner [Jump.mk 0 2 1 7, Jump.mk 1 0 0 8] =
      .ok { freshScanner with m_vec := [[1], [0]] } ∧
    Jump.mk 0 2 1 7 ∈ [Jump.mk 0 2 1 7, Jump.mk 1 0 0 8] ∧
    ∃ sc₂, SetJump { freshScanner with m_vec := [[1], [0]] } 0 2 1 9 = .ok sc₂ ∧
      ∀ current out c,
        Next sc₂ current out c = Next { freshScanner with m_vec := [[1], [0]] } current out c :=
  ⟨by rfl, by decide,
    SetJump_duplicate_Next freshScanner { freshScanner with m_vec := [[1], [0]] }
      [Jump.mk 0 2 1 7, Jump.mk 1 0 0 8] (Jump.mk 0 2 1 7) 9 (by rfl) (by decide)⟩

theorem SetJump_payload (sc : SlowScanner) (oldState c newState p p' : Nat) :
    SetJump sc oldState c newState p = SetJump sc oldState c newState p' := rfl

theorem SetJump_ok_frame (sc sc' : SlowScanner) (oldState c newState payload : Nat)
    (h : SetJump sc oldState c newState payload = .ok sc') :
    ∃ l row, sc.m_letters[c]? = some l ∧
      sc.m_vec[oldState * sc.m.lettersCount + l]? = some row ∧
      sc' = ⟨sc.m, sc.m_finals, sc.m_jumps, sc.m_jumpPos, sc.m_letters, sc.m_pool,
        sc.m_vec.set (oldState * sc.m.lettersCount + l) (row ++ [newState])⟩ := by
  unfold SetJump at h
  by_cases hne : sc.m_vec.isEmpty = true
  · simp [hne] at h
  by_cases ho : oldState < sc.m.statesCount
  swap
  · simp [hne, ho] at h
  by_cases hn : newState < sc.m.statesCount
  swap
  · simp [hne, ho, hn] at h
  cases hl : sc.m_letters[c]? with
  | none => simp [hne, ho, hn, hl] at h
  | some l =>
    cases hv : sc.m_vec[oldState * sc.m.lettersCount + l]? with
    | none => simp [hne, ho, hn, hl, hv] at h
    | some v =>
      simp only [hne, ho, hn, hl, hv, not_true_eq_false, if_false, Bool.false_eq_true,
        Except.ok.injEq] at h
      exact ⟨l, v, rfl, hv, h.symm⟩

theorem SetJump_in_range (sc : SlowScanner) (oldState c newState payload l : Nat)
    (hlen : sc.m_vec.length = sc.m.statesCount * sc.m.lettersCount)
    (ho : oldState < sc.m.statesCount) (hn : newState < sc.m.statesCount)
    (hl : sc.m_letters[c]? = some l) (hlt : l < sc.m.lettersCount) :
    ∃ sc', SetJump sc oldState c newState payload = .ok sc' := by
  have hidx : oldState * sc.m.lettersCount + l < sc.m_vec.length := by
    rw [hlen]
    exact row_index_lt ho hlt
  have hne : sc.m_vec ≠ [] := by
    intro h0
    rw [h0] at hidx
    simp at hidx
  obtain ⟨sc', h, -⟩ := SetJump_ok sc ⟨oldState, c, newState, payload⟩ ⟨hne, ho, hn, l, hl, hidx⟩
  exact ⟨sc', h⟩

/-- C12, as the code has it: `SetJump` ends in a failed assertion, before any
destination list is touched, when the dense table is not in use or `oldState` or
`newState` is not below `statesCount`; on a dense table of
`statesCount * lettersCount` rows it succeeds when both states are below
`statesCount` and the letter of `c` is below `lettersCount`. -/
theorem SetJump_asserts (sc : SlowScanner) (oldState c newState payload : Nat) :
    (sc.m_vec = [] ∨ ¬ oldState < sc.m.statesCount ∨ ¬ newState < sc.m.statesCount →
      SetJump sc oldState c newState payload = .error .assertion) ∧
    (sc.m_vec.length = sc.m.statesCount * sc.m.lettersCount →
      oldState < sc.m.statesCount → newState < sc.m.statesCount →
      ∀ l, sc.m_letters[c]? = some l → l < sc.m.lettersCount →
        ∃ sc', SetJump sc oldState c newState payload = .ok sc') := by
  constructor
  · intro h
    unfold SetJump
    by_cases hne : sc.m_vec.isEmpty = true
    · simp [hne]
    have hne' : sc.m_vec ≠ [] := fun h0 => hne (by rw [h0]; rfl)
    rcases h with h | h | h
    · exact absurd h hne'
    · simp [hne, h]
    · by_cases ho : oldState < sc.m.statesCount
      · simp [hne, ho, h]
      · simp [hne, ho]
  · intro hlen ho hn l hl hlt
    exact SetJump_in_range sc oldState c newState payload l hlen ho hn hl hlt

theorem SetJump_asserts_witness :
    (freshScanner.m_vec = [] ∨ ¬ 5 < freshScanner.m.statesCount ∨
        ¬ 1 < freshScanner.m.statesCount) ∧
    SetJump freshScanner 5 0 1 0 = .error .assertion ∧
    SetJump freshScanner 1 0 5 0 = .error .assertion ∧
    ∃ sc', SetJump freshScanner 1 3 0 0 = .ok sc' :=
  ⟨by decide, (SetJump_asserts freshScanner 5 0 1 0).1 (by decide),
    (SetJump_asserts freshScanner 1 0 5 0).1 (by decide),
    (SetJump_asserts freshScanner 1 3 0 0).2 (by decide) (by decide) (by decide) 0 (by decide)
      (by decide)⟩

/-- C12 as stated fails: on a scanner whose letter table gives the symbol 0 the
letter 1, not below `lettersCount = 1`, the call `SetJump(0, 0, 0, 0)` does not
fail; it appends to the list of row 1. -/
theorem SetJump_letter_unchecked :
    looseLetterScanner.m_letters[0]? = some 1 ∧
    ¬ 1 < looseLetterScanner.m.lettersCount ∧
    SetJump looseLetterScanner 0 0 0 0 = .ok { looseLetterScanner with m_vec := [[], [0]] } :=
  ⟨by decide, by decide, by rfl⟩

/-- C13: a `SetJump` call that succeeds leaves the scanner as it was except for the
destination list of row `oldState * lettersCount + letters[c]`, which is its
previous value with `newState` appended at the end: every other list, the letter
table, the finals table and the header are unchanged.  The result does not depend
on the payload.  On a dense table of `statesCount * lettersCount` rows the call
succeeds when `oldState, newState < statesCount` and `letters[c] < lettersCount`. -/
theorem SetJump_frame (sc : SlowScanner) (oldState c newState payload : Nat) :
    (∀ sc', SetJump sc oldState c newState payload = .ok sc' →
      ∃ l row, sc.m_letters[c]? = some l ∧
        sc.m_vec[oldState * sc.m.lettersCount + l]? = some row ∧
        sc'.m_vec[oldState * sc.m.lettersCount + l]? = some (row ++ [newState]) ∧
        (∀ i, i ≠ oldState * sc.m.lettersCount + l → sc'.m_vec[i]? = sc.m_vec[i]?) ∧
        sc'.m_vec.length = sc.m_vec.length ∧
        sc'.m_letters = sc.m_letters ∧ sc'.m_finals = sc.m_finals ∧ sc'.m = sc.m ∧
        sc'.m_jumps = sc.m_jumps ∧ sc'.m_jumpPos = sc.m_jumpPos ∧ sc'.m_pool = sc.m_pool) ∧
    (∀ payload', SetJump sc oldState c newState payload' =
      SetJump sc oldState c newState payload) ∧
    (sc.m_vec.length = sc.m.statesCount * sc.m.lettersCount →
      oldState < sc.m.statesCount → newState < sc.m.statesCount →
      ∀ l, sc.m_letters[c]? = some l → l < sc.m.lettersCount →
        ∃ sc', SetJump sc oldState c newState payload = .ok sc') := by
  refine ⟨fun sc' h => ?_, fun payload' => rfl, fun hlen ho hn l hl hlt =>
    SetJump_in_range sc oldState c newState payload l hlen ho hn hl hlt⟩
  obtain ⟨l, row, hl, hrow, hsc'⟩ := SetJump_ok_frame sc sc' oldState c newState payload h
  have hidx := (List.getElem?_eq_some.1 hrow).1
  subst hsc'
  refine ⟨l, row, hl, hrow, ?_, fun i hi => ?_, by simp, rfl, rfl, rfl, rfl, rfl, rfl⟩
  · simp [List.getElem?_set, hidx]
  · simp only [List.getElem?_set_ne (Ne.symm hi)]

theorem SetJump_frame_witness :
    SetJump dupScanner 2 1 0 7 = .ok { dupScanner with m_vec := [[1, 1, 0], [], [1, 2, 0]] } ∧
    (∃ l row, dupScanner.m_letters[1]? = some l ∧
      dupScanner.m_vec[2 * dupScanner.m.lettersCount + l]? = some row ∧
      (SlowScanner.mk dupScanner.m dupScanner.m_finals [] [] dupScanner.m_letters
          dupScanner.m_pool [[1, 1, 0], [], [1, 2, 0]]).m_vec[2 * dupScanner.m.lettersCount + l]? =
        some (row ++ [0])) ∧
    ∃ sc', SetJump dupScanner 2 1 0 7 = .ok sc' :=
  ⟨by rfl,
    ((SetJump_frame dupScanner 2 1 0 7).1 _ (by rfl)).imp fun _ h =>
      h.imp fun _ h' => ⟨h'.1, h'.2.1, h'.2.2.1⟩,
    (SetJump_frame dupScanner 2 1 0 7).2.2 (by decide) (by decide) (by decide) 0 (by decide)
      (by decide)⟩

/-- C18, as the code has it: a second `SetJump` call with the triple of a call that
succeeded succeeds too, and leaves the dense lists as they were after the first
call except that `newState` is appended once more to the list of row
`oldState * lettersCount + letters[c]`, which then ends with `newState` twice. -/
theorem SetJump_twice (sc sc₁ : SlowScanner) (oldState c newState payload payload' : Nat)
    (h₁ : SetJump sc oldState c newState payload = .ok sc₁) :
    ∃ sc₂ l row, SetJump sc₁ oldState c newState payload' = .ok sc₂ ∧
      sc.m_letters[c]? = some l ∧
      sc.m_vec[oldState * sc.m.lettersCount + l]? = some row ∧
      sc₁.m_vec[oldState * sc.m.lettersCount + l]? = some (row ++ [newState]) ∧
      sc₂.m_vec[oldState * sc.m.lettersCount + l]? = some (row ++ [newState] ++ [newState]) ∧
      (∀ i, i ≠ oldState * sc.m.lettersCount + l → sc₂.m_vec[i]? = sc₁.m_vec[i]?) ∧
      sc₂.m_vec.length = sc₁.m_vec.length := by
  obtain ⟨l, row, hl, hrow, hsc₁⟩ := SetJump_ok_frame sc sc₁ oldState c newState payload h₁
  have hidx := (List.getElem?_eq_some.1 hrow).1
  have hjok := SetJump_ok_inv sc sc₁ ⟨oldState, c, newState, payload⟩ h₁
  obtain ⟨sc₁', h₁', hm₁, hl₁, -, -, -, hlen₁, -⟩ :=
    SetJump_ok sc ⟨oldState, c, newState, payload⟩ hjok
  have h₁'' : SetJump sc oldState c newState payload = .ok sc₁' := h₁'
  rw [h₁] at h₁''
  cases h₁''
  have hjok₁ : JumpOk sc₁ ⟨oldState, c, newState, payload'⟩ :=
    (JumpOk_congr sc sc₁ hm₁ hl₁ hlen₁ ⟨oldState, c, newState, payload'⟩).2 hjok
  obtain ⟨sc₂, h₂, -⟩ := SetJump_ok sc₁ ⟨oldState, c, newState, payload'⟩ hjok₁
  have h₂' : SetJump sc₁ oldState c newState payload' = .ok sc₂ := h₂
  obtain ⟨l₂, row₂, hl₂, hrow₂, hsc₂⟩ :=
    SetJump_ok_frame sc₁ sc₂ oldState c newState payload' h₂'
  rw [hl₁, hl] at hl₂
  cases hl₂
  rw [hm₁] at hrow₂ hsc₂
  have hrow₁ : sc₁.m_vec[oldState * sc.m.lettersCount + l]? = some (row ++ [newState]) := by
    rw [hsc₁]
    simp [List.getElem?_set, hidx]
  rw [hrow₁] at hrow₂
  cases hrow₂
  have hidx₁ := (List.getElem?_eq_some.1 hrow₁).1
  refine ⟨sc₂, l, row, h₂', hl, hrow, hrow₁, ?_, fun i hi => ?_, ?_⟩
  · rw [hsc₂]
    simp [List.getElem?_set, hidx₁]
  · rw [hsc₂]
    simp only [List.getElem?_set_ne (Ne.symm hi)]
  · rw [hsc₂]
    simp

theorem SetJump_twice_witness :
    SetJump freshScanner 0 2 1 7 = .ok { freshScanner with m_vec := [[1], []] } ∧
    ∃ sc₂ l row, SetJump { freshScanner with m_vec := [[1], []] } 0 2 1 8 = .ok sc₂ ∧
      freshScanner.m_letters[2]? = some l ∧
      freshScanner.m_vec[0 * freshScanner.m.lettersCount + l]? = some row ∧
      (SlowScanner.mk freshScanner.m freshScanner.m_finals [] [] freshScanner.m_letters
        freshScanner.m_pool [[1], []]).m_vec[0 * freshScanner.m.lettersCount + l]? =
          some (row ++ [1]) ∧
      sc₂.m_vec[0 * freshScanner.m.lettersCount + l]? = some (row ++ [1] ++ [1]) ∧
      (∀ i, i ≠ 0 * freshScanner.m.lettersCount + l →
        sc₂.m_vec[i]? = (SlowScanner.mk freshScanner.m freshScanner.m_finals [] []
          freshScanner.m_letters freshScanner.m_pool [[1], []]).m_vec[i]?) ∧
      sc₂.m_vec.length = (SlowScanner.mk freshScanner.m freshScanner.m_finals [] []
        freshScanner.m_letters freshScanner.m_pool [[1], []]).m_vec.length :=
  ⟨by rfl, SetJump_twice freshScanner { freshScanner with m_vec := [[1], []] } 0 2 1 7 8 (by rfl)⟩

/-- C18 as stated fails: after two `SetJump(0, 2, 1, _)` calls on a fresh scanner
the list of row 0 is `[1, 1]`, after one call it is `[1]`. -/
theorem SetJump_appends_again :
    SetJump freshScanner 0 2 1 7 = .ok { freshScanner with m_vec := [[1], []] } ∧
    SetJump { freshScanner with m_vec := [[1], []] } 0 2 1 7 =
      .ok { freshScanner with m_vec := [[1, 1], []] } ∧
    ([[1, 1], []] : List (List Nat)) ≠ [[1], []] :=
  ⟨by rfl, by rfl, by decide⟩

/-! ## The letter table of the constructor -/

theorem setLetters_spec (id : Nat) (cls tbl t : List Nat) (h : setLetters id cls tbl = some t) :
    t.length = tbl.length ∧ (∀ c ∈ cls, t[c]? = some id) ∧ ∀ c, c ∉ cls → t[c]? = tbl[c]? := by
  induction cls generalizing tbl with
  | nil =>
    simp only [setLetters, Option.some.injEq] at h
    subst h
    simp
  | cons x xs ih =>
    simp only [setLetters] at h
    by_cases hx : x < tbl.length
    · rw [if_pos hx] at h
      obtain ⟨hlen, hin, hout⟩ := ih _ h
      refine ⟨by simpa using hlen, fun c hc => ?_, fun c hc => ?_⟩
      · by_cases hcx : c ∈ xs
        · exact hin c hcx
        · have hc' : c = x := by
            rcases List.mem_cons.1 hc with h' | h'
            · exact h'
            · exact absurd h' hcx
          subst hc'
          rw [hout c hcx]
          simp [List.getElem?_set, hx]
      · have hne : x ≠ c := fun e => hc (e ▸ List.mem_cons_self _ _)
        rw [hout c (fun h' => hc (List.mem_cons_of_mem _ h')), List.getElem?_set_ne hne]
    · rw [if_neg hx] at h
      cases h

theorem setLetters_total (id : Nat) (cls tbl : List Nat) (h : ∀ c ∈ cls, c < tbl.length) :
    ∃ t, setLetters id cls tbl = some t := by
  induction cls generalizing tbl with
  | nil => exact ⟨tbl, rfl⟩
  | cons x xs ih =>
    simp only [setLetters, if_pos (h x (List.mem_cons_self _ _))]
    exact ih _ (fun c hc => by
      rw [List.length_set]
      exact h c (List.mem_cons_of_mem _ hc))

theorem setClasses_spec (classes : List (Nat × List Nat)) (tbl t : List Nat)
    (h : setClasses classes tbl = some t) :
    t.length = tbl.length ∧
    (∀ c, (∀ cls ∈ classes, c ∉ cls.2) → t[c]? = tbl[c]?) ∧
    (classes.Pairwise (fun a b => ∀ c ∈ a.2, c ∉ b.2) →
      ∀ cls ∈ classes, ∀ c ∈ cls.2, t[c]? = some cls.1) := by
  induction classes generalizing tbl with
  | nil =>
    simp only [setClasses, Option.some.injEq] at h
    subst h
    simp
  | cons cls rest ih =>
    simp only [setClasses] at h
    cases h1 : setLetters cls.1 cls.2 tbl with
    | none => simp [h1] at h
    | some t1 =>
      simp only [h1] at h
      obtain ⟨hlen1, hin1, hout1⟩ := setLetters_spec _ _ _ _ h1
      obtain ⟨hlen, hno, hyes⟩ := ih _ h
      refine ⟨hlen.trans hlen1, fun c hc => ?_, fun hpw cls' hcls' c hc => ?_⟩
      · rw [hno c (fun cls' hcls' => hc cls' (List.mem_cons_of_mem _ hcls')),
          hout1 c (hc cls (List.mem_cons_self _ _))]
      · rw [List.pairwise_cons] at hpw
        rcases List.mem_cons.1 hcls' with rfl | hmem
        · rw [hno c (fun cls'' hcls'' => hpw.1 cls'' hcls'' c hc)]
          exact hin1 c hc
        · exact hyes hpw.2 cls' hmem c hc

theorem setClasses_total (classes : List (Nat × List Nat)) (tbl : List Nat)
    (h : ∀ cls ∈ classes, ∀ c ∈ cls.2, c < tbl.length) :
    ∃ t, setClasses classes tbl = some t := by
  induction classes generalizing tbl with
  | nil => exact ⟨tbl, rfl⟩
  | cons cls rest ih =>
    obtain ⟨t1, h1⟩ := setLetters_total cls.1 cls.2 tbl (h cls (List.mem_cons_self _ _))
    simp only [setClasses, h1]
    exact ih t1 (fun cls' hcls' c hc => by
      rw [(setLetters_spec _ _ _ _ h1).1]
      exact h cls' (List.mem_cons_of_mem _ hcls') c hc)

theorem fill_one_zero (MaxChar : Nat) (tbl : List Nat)
    (h : fill (List.replicate MaxChar 0) 1 0 = some tbl) :
    1 ≤ MaxChar ∧ tbl = List.replicate MaxChar 0 := by
  unfold fill at h
  by_cases hm : 1 ≤ (List.replicate MaxChar 0).length
  · rw [if_pos hm] at h
    simp only [List.length_replicate] at hm
    refine ⟨hm, ?_⟩
    simp only [Option.some.injEq] at h
    rw [← h]
    obtain ⟨k, rfl⟩ : ∃ k, MaxChar = k + 1 := ⟨MaxChar - 1, by omega⟩
    simp [List.replicate_succ]
  · rw [if_neg hm] at h
    cases h

/-- C14: when the set-up of the constructor completes on an automaton whose letter
classes are pairwise disjoint, the letter table has `MaxChar` entries and, for
every raw symbol `c < MaxChar`, `letters[c]` is the condensed id of the class `c`
belongs to, and 0 when `c` belongs to no class.  The set-up completes when
`MaxChar >= 1` and every symbol of every class is below `MaxChar`. -/
theorem construct_letters (MaxChar : Nat) (fsm : Fsm) :
    (∀ sc, construct MaxChar fsm = some sc →
      fsm.Letters.Pairwise (fun a b => ∀ c ∈ a.2, c ∉ b.2) →
      sc.m_letters.length = MaxChar ∧
      ∀ c, c < MaxChar →
        (∀ k cls, (k, cls) ∈ fsm.Letters → c ∈ cls → sc.m_letters[c]? = some k) ∧
        ((∀ k cls, (k, cls) ∈ fsm.Letters → c ∉ cls) → sc.m_letters[c]? = some 0)) ∧
    (1 ≤ MaxChar → (∀ k cls, (k, cls) ∈ fsm.Letters → ∀ c ∈ cls, c < MaxChar) →
      ∃ sc, construct MaxChar fsm = some sc) := by
  constructor
  · intro sc h hpw
    simp only [construct, alloc] at h
    cases h1 : fill (List.replicate MaxChar 0) 1 0 with
    | none => simp [h1] at h
    | some tbl =>
      obtain ⟨-, htbl⟩ := fill_one_zero MaxChar tbl h1
      cases h2 : setClasses fsm.Letters tbl with
      | none => simp [h1, h2] at h
      | some tbl' =>
        simp only [h1, h2, Option.some.injEq] at h
        subst h
        obtain ⟨hlen, hno, hyes⟩ := setClasses_spec _ _ _ h2
        subst htbl
        refine ⟨by simpa using hlen, fun c hc => ⟨fun k cls hmem hccls => ?_, fun hnone => ?_⟩⟩
        · exact hyes hpw (k, cls) hmem c hccls
        · show tbl'[c]? = some 0
          rw [hno c (fun cls hcls => hnone cls.1 cls.2 hcls)]
          simp [List.getElem?_replicate, hc]
  · intro hmax hsym
    simp only [construct, alloc]
    have h1 : fill (List.replicate MaxChar 0) 1 0 =
        some (List.replicate 1 0 ++ (List.replicate MaxChar 0).drop 1) := by
      unfold fill
      rw [if_pos (by simpa using hmax)]
    obtain ⟨t, ht⟩ := setClasses_total fsm.Letters
      (List.replicate 1 0 ++ (List.replicate MaxChar 0).drop 1) (fun cls hcls c hc => by
        have := hsym cls.1 cls.2 hcls c hc
        simp only [List.length_append, List.length_replicate, List.length_drop]
        omega)
    simp only [h1, ht]
    exact ⟨_, rfl⟩

set_option maxRecDepth 8000 in
theorem abFsm_construct :
    (construct 264 abFsm).map (fun sc => sc.m_letters) = some abLetters := by
  decide

theorem construct_letters_witness :
    abFsm.Letters.Pairwise (fun a b => ∀ c ∈ a.2, c ∉ b.2) ∧
    (∃ sc, construct 264 abFsm = some sc ∧ sc.m_letters = abLetters ∧
      sc.m_letters.length = 264 ∧
      ∀ c, c < 264 →
        (∀ k cls, (k, cls) ∈ abFsm.Letters → c ∈ cls → sc.m_letters[c]? = some k) ∧
        ((∀ k cls, (k, cls) ∈ abFsm.Letters → c ∉ cls) → sc.m_letters[c]? = some 0)) :=
  have hpw : abFsm.Letters.Pairwise (fun a b => ∀ c ∈ a.2, c ∉ b.2) := by decide
  have hsome : ∃ sc, construct 264 abFsm = some sc :=
    (construct_letters 264 abFsm).2 (by decide) (fun k cls hmem c hc =>
      (by decide : ∀ p ∈ abFsm.Letters, ∀ c ∈ p.2, c < 264) (k, cls) hmem c hc)
  ⟨hpw, hsome.elim fun sc hsc =>
    ⟨sc, hsc, by
      have := abFsm_construct
      rw [hsc] at this
      simpa using this,
      (construct_letters 264 abFsm).1 sc hsc hpw⟩⟩

/-! ## `Mmap` and its failures -/

end SlowScanner

end Pire
